import Mathlib

/-!
# Verification of the starship-jj prompt renderer

Shallow embedding, in Lean 4, of the parts of the `starship-jj` source that
the specification's claims are about:

* the style model and style merging (`src/config/util.rs`),
* the ANSI transition computation (`Style::format`, delegating to
  `nu_ansi_term`'s `Difference`/`Infix` semantics),
* the display-width-aware truncation (`print_ansi_truncated` in `src/main.rs`),
* the lazy memoized repository-state cache (`src/state.rs`),
* the bookmark-proximity search (`find_parent_bookmarks` and
  `collect_bookmarks_for_commit` in `src/main.rs`),
* the bookmark list rendering (`Bookmarks::print` in `src/config/bookmarks.rs`),
* the short-id rendering of the Commit module (`src/config/commit.rs`),
* the watchdog completion flag of `Config::print` (`src/config.rs`).

External collaborators (the jj engine's revset evaluation, `nu_ansi_term`,
`unicode_width`) are modelled by pure functions faithful to their documented
behaviour; the embedding of code from this repository follows the Rust source
line by line.
-/

set_option maxRecDepth 4000

namespace StarshipJJ

/-! ## Style model (`src/config/util.rs`)

`Style`, `TextAttributess` and `Color` mirror the structs in
`src/config/util.rs` lines 30-163.  Rust `Option<T>` fields become `Option`
fields; the `u8` components of `TrueColor` become `Nat` (no arithmetic is
ever performed on them, so no modular reduction is needed). -/

inductive Color where
  | Black | Red | Green | Yellow | Blue | Magenta | Cyan | White
  | BrightBlack | BrightRed | BrightGreen | BrightYellow
  | BrightBlue | BrightMagenta | BrightCyan | BrightWhite
  | TrueColor (r g b : Nat)
deriving DecidableEq, Repr

structure TextAttributess where
  bold : Option Bool := none
  dimmed : Option Bool := none
  italic : Option Bool := none
  underline : Option Bool := none
  blink : Option Bool := none
  reverse : Option Bool := none
  hidden : Option Bool := none
  strikethrough : Option Bool := none
deriving DecidableEq, Repr

structure Style where
  color : Option Color := none
  bg_color : Option Color := none
  attributes : TextAttributess := {}
deriving DecidableEq, Repr

/-- `Style::merge_with_fallback` (`src/config/util.rs` lines 43-65):
if the fallback is absent the style is returned unchanged, otherwise each
optional field of `self` that is `None` is replaced by the fallback's field
(Rust `Option::or`). -/
def Style.merge_with_fallback (self : Style) (fallback : Option Style) : Style :=
  match fallback with
  | none => self
  | some fallback =>
    { color := self.color.or fallback.color
      bg_color := self.bg_color.or fallback.bg_color
      attributes :=
        { bold := self.attributes.bold.or fallback.attributes.bold
          dimmed := self.attributes.dimmed.or fallback.attributes.dimmed
          italic := self.attributes.italic.or fallback.attributes.italic
          underline := self.attributes.underline.or fallback.attributes.underline
          blink := self.attributes.blink.or fallback.attributes.blink
          reverse := self.attributes.reverse.or fallback.attributes.reverse
          hidden := self.attributes.hidden.or fallback.attributes.hidden
          strikethrough := self.attributes.strikethrough.or fallback.attributes.strikethrough } }

/-- "The field of the merged style equals `a`'s field when present, else `b`'s
field": the relation the spec states for every optional field of the merge. -/
def fieldMerged {α : Type} (a b c : Option α) : Prop :=
  (∀ x, a = some x → c = some x) ∧ (a = none → c = b)

theorem fieldMerged_or {α : Type} (a b : Option α) : fieldMerged a b (a.or b) := by
  cases a <;> simp [fieldMerged, Option.or]

/-! ## `nu_ansi_term` styles and transitions

`Style::format` (`src/config/util.rs` lines 80-94) converts the merged style
into a `nu_ansi_term::Style` (the `From` impl at lines 97-113, which sets
`prefix_with_reset = true` and defaults every absent attribute to `false`)
and then asks `nu_ansi_term` for either a full prefix (first span) or the
infix transition from the previously emitted style.  `NuStyle`, `NuColor`,
`Difference.between` and the prefix/infix strings below model
`nu_ansi_term`'s `style.rs`/`difference.rs`/`ansi.rs`: `between` returns
`NoDifference` when the two styles are equal, `Reset` when an attribute or a
color would have to be switched off, and otherwise the extra attributes to
switch on. -/

inductive NuColor where
  | Black | Red | Green | Yellow | Blue | Magenta | Cyan | White
  | DarkGray | LightRed | LightGreen | LightYellow
  | LightBlue | LightMagenta | LightCyan | LightGray
  | Rgb (r g b : Nat)
deriving DecidableEq, Repr

/-- `From<Color> for nu_ansi_term::Color` (`src/config/util.rs` lines 165-187). -/
def Color.toNu : Color → NuColor
  | .Black => .Black
  | .Red => .Red
  | .Green => .Green
  | .Yellow => .Yellow
  | .Blue => .Blue
  | .Magenta => .Magenta
  | .Cyan => .Cyan
  | .White => .White
  | .BrightBlack => .DarkGray
  | .BrightRed => .LightRed
  | .BrightGreen => .LightGreen
  | .BrightYellow => .LightYellow
  | .BrightBlue => .LightBlue
  | .BrightMagenta => .LightMagenta
  | .BrightCyan => .LightCyan
  | .BrightWhite => .LightGray
  | .TrueColor r g b => .Rgb r g b

structure NuStyle where
  foreground : Option NuColor := none
  background : Option NuColor := none
  is_bold : Bool := false
  is_dimmed : Bool := false
  is_italic : Bool := false
  is_underline : Bool := false
  is_blink : Bool := false
  is_reverse : Bool := false
  is_hidden : Bool := false
  is_strikethrough : Bool := false
  prefix_with_reset : Bool := false
deriving DecidableEq, Repr

/-- `From<&Style> for nu_ansi_term::Style` (`src/config/util.rs` lines 97-113):
absent boolean attributes become `false` (`unwrap_or_default`) and
`prefix_with_reset` is set to `true`. -/
def Style.toNu (value : Style) : NuStyle :=
  { foreground := value.color.map Color.toNu
    background := value.bg_color.map Color.toNu
    is_bold := value.attributes.bold.getD false
    is_dimmed := value.attributes.dimmed.getD false
    is_italic := value.attributes.italic.getD false
    is_underline := value.attributes.underline.getD false
    is_blink := value.attributes.blink.getD false
    is_reverse := value.attributes.reverse.getD false
    is_hidden := value.attributes.hidden.getD false
    is_strikethrough := value.attributes.strikethrough.getD false
    prefix_with_reset := true }

/-- ANSI SGR code of a foreground color (models `nu_ansi_term`'s
`Color::write_foreground_code`). -/
def NuColor.fgCode : NuColor → String
  | .Black => "30"
  | .Red => "31"
  | .Green => "32"
  | .Yellow => "33"
  | .Blue => "34"
  | .Magenta => "35"
  | .Cyan => "36"
  | .White => "37"
  | .DarkGray => "90"
  | .LightRed => "91"
  | .LightGreen => "92"
  | .LightYellow => "93"
  | .LightBlue => "94"
  | .LightMagenta => "95"
  | .LightCyan => "96"
  | .LightGray => "97"
  | .Rgb r g b => "38;2;" ++ toString r ++ ";" ++ toString g ++ ";" ++ toString b

/-- ANSI SGR code of a background color (models `nu_ansi_term`'s
`Color::write_background_code`). -/
def NuColor.bgCode : NuColor → String
  | .Black => "40"
  | .Red => "41"
  | .Green => "42"
  | .Yellow => "43"
  | .Blue => "44"
  | .Magenta => "45"
  | .Cyan => "46"
  | .White => "47"
  | .DarkGray => "100"
  | .LightRed => "101"
  | .LightGreen => "102"
  | .LightYellow => "103"
  | .LightBlue => "104"
  | .LightMagenta => "105"
  | .LightCyan => "106"
  | .LightGray => "107"
  | .Rgb r g b => "48;2;" ++ toString r ++ ";" ++ toString g ++ ";" ++ toString b

/-- The escape sequence switching on everything a style asks for (models
`nu_ansi_term`'s `Style::write_prefix`): an empty string for a plain style,
otherwise `ESC [ codes m` with the reset code first when
`prefix_with_reset` is set. -/
def NuStyle.prefixStr (s : NuStyle) : String :=
  let codes : List String :=
    (if s.prefix_with_reset then ["0"] else []) ++
    (if s.is_bold then ["1"] else []) ++
    (if s.is_dimmed then ["2"] else []) ++
    (if s.is_italic then ["3"] else []) ++
    (if s.is_underline then ["4"] else []) ++
    (if s.is_blink then ["5"] else []) ++
    (if s.is_reverse then ["7"] else []) ++
    (if s.is_hidden then ["8"] else []) ++
    (if s.is_strikethrough then ["9"] else []) ++
    (match s.background with | some c => [c.bgCode] | none => []) ++
    (match s.foreground with | some c => [c.fgCode] | none => [])
  if codes.isEmpty then "" else "\x1b[" ++ String.intercalate ";" codes ++ "m"

inductive Difference where
  | NoDifference
  | ExtraStyles (s : NuStyle)
  | Reset
deriving DecidableEq, Repr

/-- Models `nu_ansi_term`'s `Difference::between`: equal styles need no
transition; switching any attribute off, or dropping a color, needs a full
reset; otherwise only the extra attributes are emitted. -/
def Difference.between (first next : NuStyle) : Difference :=
  if first = next then .NoDifference
  else if (first.is_bold && !next.is_bold) ||
          (first.is_dimmed && !next.is_dimmed) ||
          (first.is_italic && !next.is_italic) ||
          (first.is_underline && !next.is_underline) ||
          (first.is_blink && !next.is_blink) ||
          (first.is_reverse && !next.is_reverse) ||
          (first.is_hidden && !next.is_hidden) ||
          (first.is_strikethrough && !next.is_strikethrough) ||
          (first.foreground.isSome && next.foreground.isNone) ||
          (first.background.isSome && next.background.isNone) then .Reset
  else
    .ExtraStyles
      { foreground := if first.foreground ≠ next.foreground then next.foreground else none
        background := if first.background ≠ next.background then next.background else none
        is_bold := !first.is_bold && next.is_bold
        is_dimmed := !first.is_dimmed && next.is_dimmed
        is_italic := !first.is_italic && next.is_italic
        is_underline := !first.is_underline && next.is_underline
        is_blink := !first.is_blink && next.is_blink
        is_reverse := !first.is_reverse && next.is_reverse
        is_hidden := !first.is_hidden && next.is_hidden
        is_strikethrough := !first.is_strikethrough && next.is_strikethrough
        prefix_with_reset := false }

/-- Models `nu_ansi_term`'s `Infix` display: the transition string between an
already-emitted style and the next one. -/
def NuStyle.infixStr (first next : NuStyle) : String :=
  match Difference.between first next with
  | .NoDifference => ""
  | .ExtraStyles s => s.prefixStr
  | .Reset => "\x1b[0m" ++ next.prefixStr

/-- `Style::format` (`src/config/util.rs` lines 80-94): merge with the
fallback, convert to a terminal style, emit the infix from the previously
emitted style (or the full prefix when there is none), and record the new
style as the last emitted one.  The Rust `&mut Option<nu_ansi_term::Style>`
out-parameter is returned as the second component. -/
def Style.format (self : Style) (fallback : Option Style) (prev : Option NuStyle) :
    String × Option NuStyle :=
  let s : NuStyle := (self.merge_with_fallback fallback).toNu
  let prefix_ : String :=
    match prev with
    | some prev => prev.infixStr s
    | none => s.prefixStr
  (prefix_, some s)

/-! ## Display-width truncation (`print_ansi_truncated`, `src/main.rs` lines 297-327)

The Rust function works on a `&str`.  We model the string as its list of
characters, each carrying the display width that `unicode_width` assigns to
it (`UnicodeWidthStr::width` of a string is the sum of the widths of its
characters) and its UTF-8 byte encoding.  Rust's `char_indices()` yields, for
the `k`-th character, its starting byte index `i_k = |bytes of the first k
characters|`; since every character occupies at least one byte, `k ↦ i_k` is
strictly monotone, so Rust's `take_while`/`last` over the byte indices
`[i_0, …, i_{n-1}]` selects exactly the byte index `i_k` of the last
character position `k` satisfying the predicate, and the slice
`name[..i_k]` decodes to the first `k` characters.  The embedding therefore
computes with character positions `k` and separately relates the byte-level
slice to the character-level prefix (theorem for claim C6). -/

structure MChar where
  /-- display width of the character per `unicode_width` -/
  w : Nat
  /-- UTF-8 encoding of the character -/
  bytes : List Nat
deriving DecidableEq, Repr

/-- `UnicodeWidthStr::width`: sum of the character widths. -/
def strW (cs : List MChar) : Nat := (cs.map (·.w)).sum

/-- The UTF-8 byte string of a character list. -/
def bytesOf (cs : List MChar) : List Nat := cs.flatMap (·.bytes)

/-- The character count corresponding to the byte index computed by

```rust
let ansi_max_len = name.char_indices().map(|(i, _)| i)
    .take_while(|i| name[..*i].width() < max_len)
    .last().unwrap_or_default();
```

`char_indices` enumerates the positions `k = 0, …, n-1` (as byte indices
`i_k`); the predicate on `i_k` is `width(first k characters) < max_len`; the
`last()` of the `take_while` is the greatest position of the initial run, and
`unwrap_or_default()` turns an empty run into position `0` (byte index `0`).
The Rust slice `name[..i_k]` is the first `k` characters. -/
def ansiCutLen (name : List MChar) (max_len : Nat) : Nat :=
  (((List.range name.length).takeWhile fun k => strW (name.take k) < max_len).getLast?).getD 0

/-- The output of `print_ansi_truncated`, kept structured: the (possibly
truncated) text, whether the ellipsis was appended, and whether quotes are
emitted around it.  `rendered` below flattens it to the emitted characters. -/
structure TruncOut where
  core : List MChar
  ellipsis : Bool
  quoted : Bool
deriving DecidableEq, Repr

/-- `print_ansi_truncated` (`src/main.rs` lines 297-327): when a maximum is
configured and the display width of `name` exceeds it, cut at the boundary
computed by `ansiCutLen` and append the ellipsis; otherwise emit the name
unchanged.  Quotes are emitted around the result when requested. -/
def print_ansi_truncated (max_length : Option Nat) (name : List MChar)
    (surround_with_quotes : Bool) : TruncOut :=
  match max_length with
  | some max_len =>
    if strW name > max_len then
      { core := name.take (ansiCutLen name max_len), ellipsis := true,
        quoted := surround_with_quotes }
    else
      { core := name, ellipsis := false, quoted := surround_with_quotes }
  | none => { core := name, ellipsis := false, quoted := surround_with_quotes }

/-- The quote character `"` (one byte, width 1). -/
def quoteChar : MChar := ⟨1, [34]⟩

/-- The ellipsis character `…` (U+2026, three UTF-8 bytes, width 1). -/
def ellipsisChar : MChar := ⟨1, [226, 128, 166]⟩

/-- The characters actually written by `print_ansi_truncated`:
`{quotes}{text}{ellipsis?}{quotes}`. -/
def TruncOut.rendered (o : TruncOut) : List MChar :=
  (if o.quoted then [quoteChar] else []) ++ o.core ++
    (if o.ellipsis then [ellipsisChar] else []) ++
    (if o.quoted then [quoteChar] else [])

/-! ## The repository-state cache (`src/state.rs`)

`State` holds one optional slot per repository fact; `none` is "not yet
computed" and `some x` is "computed" (`x` itself may be `none`: computed to
absent).  The jj engine and the handles it returns are external: they are
modelled by an `Engine` record of pure functions (the `CommandHelper` is
fixed for the whole invocation, so each primitive is a function of its
arguments only).  Handle, commit, tree and error payload types are
abstracted to `Nat`; an engine failure is `Er.engine n`, and the
`unreachable!()` arms of the Rust accessors are `Er.panic`.

Each `load_*`/accessor returns, next to its result, the number of engine
primitives invoked during the call, so that "returns the stored result
without re-invoking the engine" is a statement of the embedding. -/

abbrev WSH := Nat
abbrev RepoH := Nat
abbrev CIdT := Nat
abbrev CommitT := Nat
abbrev TreeT := Nat
abbrev Copies := Nat
abbrev Stats := Nat

inductive Er where
  | engine (n : Nat)
  | panic
deriving DecidableEq, Repr

/-- The jj engine primitives used by `src/state.rs`, as one record of pure
functions of their arguments. -/
structure Engine where
  /-- `command_helper.workspace_helper(&Ui::null())` -/
  workspaceHelperSnapshot : Except Er WSH
  /-- `command_helper.workspace_helper_no_snapshot(&Ui::null())` -/
  workspaceHelperNoSnapshot : Except Er WSH
  /-- `workspace_helper.repo()` (infallible) -/
  repoOf : WSH → RepoH
  /-- `repo.view().get_wc_commit_id(workspace_helper.workspace_name()).cloned()` (infallible, may be absent) -/
  wcCommitId : RepoH → WSH → Option CIdT
  /-- `repo.store().get_commit(id)` -/
  getCommit : RepoH → CIdT → Except Er CommitT
  /-- `commit.parents().collect()` -/
  parentsOf : CommitT → Except Er (List CommitT)
  /-- `commit.parent_tree(repo)` -/
  parentTreeOf : RepoH → CommitT → Except Er TreeT
  /-- `commit.tree()` -/
  treeOf : CommitT → Except Er TreeT
  /-- the `get_copy_records`/`add_records` loop over `commit.parent_ids()` in `diff_stats` -/
  copyRecordsFor : RepoH → CommitT → Except Er Copies
  /-- `parent_tree.diff_stream_with_copies(tree, …)` + `DiffStats::calculate(…)` -/
  calcDiffStats : RepoH → TreeT → TreeT → Copies → Except Er Stats

/-- `State` (`src/state.rs` lines 21-30). -/
structure State where
  snapshot : Bool
  workspace_helper : Option WSH := none
  repo : Option RepoH := none
  commit_id : Option (Option CIdT) := none
  commit : Option (Option CommitT) := none
  parent_commits : Option (List CommitT) := none
  tree : Option (Option TreeT) := none
  parent_tree : Option (Option TreeT) := none
deriving DecidableEq, Repr

/-- `State::new` (`src/state.rs` lines 33-44). -/
def State.new (snapshot : Bool) : State := { snapshot := snapshot }

namespace State

/-- `State::load_workspace` (`src/state.rs` lines 46-57). -/
def load_workspace (e : Engine) (s : State) : Except Er (State × Nat) :=
  if s.workspace_helper.isSome then .ok (s, 0)
  else
    match (if s.snapshot then e.workspaceHelperSnapshot else e.workspaceHelperNoSnapshot) with
    | .error er => .error er
    | .ok helper => .ok ({ s with workspace_helper := some helper }, 1)

/-- `State::workspace_helper` (`src/state.rs` lines 59-68). -/
def workspace_helperA (e : Engine) (s : State) : Except Er (WSH × State × Nat) :=
  match load_workspace e s with
  | .error er => .error er
  | .ok (s, n) =>
    match s.workspace_helper with
    | some w => .ok (w, s, n)
    | none => .error .panic

/-- `State::load_repo` (`src/state.rs` lines 70-78). -/
def load_repo (e : Engine) (s : State) : Except Er (State × Nat) :=
  if s.repo.isSome then .ok (s, 0)
  else
    match workspace_helperA e s with
    | .error er => .error er
    | .ok (w, s, n) => .ok ({ s with repo := some (e.repoOf w) }, n + 1)

/-- `State::repo` (`src/state.rs` lines 80-86). -/
def repoA (e : Engine) (s : State) : Except Er (RepoH × State × Nat) :=
  match load_repo e s with
  | .error er => .error er
  | .ok (s, n) =>
    match s.repo with
    | some repo => .ok (repo, s, n)
    | none => .error .panic

/-- `State::load_commit_id` (`src/state.rs` lines 88-100): asks the repo,
then the workspace helper, then reads the working-copy commit id from the
view. -/
def load_commit_id (e : Engine) (s : State) : Except Er (State × Nat) :=
  if s.commit_id.isSome then .ok (s, 0)
  else
    match repoA e s with
    | .error er => .error er
    | .ok (r, s, n₁) =>
      match workspace_helperA e s with
      | .error er => .error er
      | .ok (w, s, n₂) =>
        .ok ({ s with commit_id := some (e.wcCommitId r w) }, n₁ + n₂ + 1)

/-- `State::commit_id` (`src/state.rs` lines 102-108). -/
def commit_idA (e : Engine) (s : State) : Except Er (Option CIdT × State × Nat) :=
  match load_commit_id e s with
  | .error er => .error er
  | .ok (s, n) =>
    match s.commit_id with
    | some w => .ok (w, s, n)
    | none => .error .panic

/-- `State::load_commit` (`src/state.rs` lines 110-124): fetches the commit
for the cached id; an absent id is cached as an absent commit
(`map`/`transpose` over the option). -/
def load_commit (e : Engine) (s : State) : Except Er (State × Nat) :=
  if s.commit.isSome then .ok (s, 0)
  else
    match repoA e s with
    | .error er => .error er
    | .ok (r, s, n₁) =>
      match commit_idA e s with
      | .error er => .error er
      | .ok (cid?, s, n₂) =>
        match cid? with
        | none => .ok ({ s with commit := some none }, n₁ + n₂)
        | some cid =>
          match e.getCommit r cid with
          | .error er => .error er
          | .ok c => .ok ({ s with commit := some (some c) }, n₁ + n₂ + 1)

/-- `State::commit` (`src/state.rs` lines 125-131). -/
def commitA (e : Engine) (s : State) : Except Er (Option CommitT × State × Nat) :=
  match load_commit e s with
  | .error er => .error er
  | .ok (s, n) =>
    match s.commit with
    | some w => .ok (w, s, n)
    | none => .error .panic

/-- `State::load_parent_commits` (`src/state.rs` lines 133-150): collects the
parents of the cached commit; an absent commit yields the empty list
(`unwrap_or_default`). -/
def load_parent_commits (e : Engine) (s : State) : Except Er (State × Nat) :=
  if s.parent_commits.isSome then .ok (s, 0)
  else
    match commitA e s with
    | .error er => .error er
    | .ok (c?, s, n) =>
      match c? with
      | none => .ok ({ s with parent_commits := some [] }, n)
      | some c =>
        match e.parentsOf c with
        | .error er => .error er
        | .ok ps => .ok ({ s with parent_commits := some ps }, n + 1)

/-- `State::parent_commits` (`src/state.rs` lines 151-157). -/
def parent_commitsA (e : Engine) (s : State) : Except Er (List CommitT × State × Nat) :=
  match load_parent_commits e s with
  | .error er => .error er
  | .ok (s, n) =>
    match s.parent_commits with
    | some w => .ok (w, s, n)
    | none => .error .panic

/-- `State::load_parent_tree` (`src/state.rs` lines 159-171). -/
def load_parent_tree (e : Engine) (s : State) : Except Er (State × Nat) :=
  if s.parent_tree.isSome then .ok (s, 0)
  else
    match repoA e s with
    | .error er => .error er
    | .ok (r, s, n₁) =>
      match commitA e s with
      | .error er => .error er
      | .ok (c?, s, n₂) =>
        match c? with
        | none => .ok ({ s with parent_tree := some none }, n₁ + n₂)
        | some c =>
          match e.parentTreeOf r c with
          | .error er => .error er
          | .ok t => .ok ({ s with parent_tree := some (some t) }, n₁ + n₂ + 1)

/-- `State::parent_tree` (`src/state.rs` lines 172-178). -/
def parent_treeA (e : Engine) (s : State) : Except Er (Option TreeT × State × Nat) :=
  match load_parent_tree e s with
  | .error er => .error er
  | .ok (s, n) =>
    match s.parent_tree with
    | some w => .ok (w, s, n)
    | none => .error .panic

/-- `State::load_tree` (`src/state.rs` lines 180-188). -/
def load_tree (e : Engine) (s : State) : Except Er (State × Nat) :=
  if s.tree.isSome then .ok (s, 0)
  else
    match commitA e s with
    | .error er => .error er
    | .ok (c?, s, n) =>
      match c? with
      | none => .ok ({ s with tree := some none }, n)
      | some c =>
        match e.treeOf c with
        | .error er => .error er
        | .ok t => .ok ({ s with tree := some (some t) }, n + 1)

/-- `State::tree` (`src/state.rs` lines 190-196). -/
def treeA (e : Engine) (s : State) : Except Er (Option TreeT × State × Nat) :=
  match load_tree e s with
  | .error er => .error er
  | .ok (s, n) =>
    match s.tree with
    | some w => .ok (w, s, n)
    | none => .error .panic

/-- `State::diff_stats` (`src/state.rs` lines 198-232): loads both trees and
the repo; if the commit, the tree or the parent tree is absent (or not yet
computed) it returns `Ok(None)`; otherwise it asks the engine for copy
records and the diff statistics. -/
def diff_stats (e : Engine) (s : State) : Except Er (Option Stats × State × Nat) :=
  match load_parent_tree e s with
  | .error er => .error er
  | .ok (s, n₁) =>
    match load_tree e s with
    | .error er => .error er
    | .ok (s, n₂) =>
      match repoA e s with
      | .error er => .error er
      | .ok (r, s, n₃) =>
        match s.commit with
        | some (some c) =>
          match s.tree with
          | some (some t) =>
            match s.parent_tree with
            | some (some pt) =>
              match e.copyRecordsFor r c with
              | .error er => .error er
              | .ok cr =>
                match e.calcDiffStats r pt t cr with
                | .error er => .error er
                | .ok st => .ok (some st, s, n₁ + n₂ + n₃ + 2)
            | _ => .ok (none, s, n₁ + n₂ + n₃)
          | _ => .ok (none, s, n₁ + n₂ + n₃)
        | _ => .ok (none, s, n₁ + n₂ + n₃)

/-- `State::commit_is_empty` (`src/state.rs` lines 234-246): loads both
trees; if either is absent (or not yet computed) it returns `Ok(None)`,
otherwise the structural equality of the two trees. -/
def commit_is_empty (e : Engine) (s : State) : Except Er (Option Bool × State × Nat) :=
  match load_parent_tree e s with
  | .error er => .error er
  | .ok (s, n₁) =>
    match load_tree e s with
    | .error er => .error er
    | .ok (s, n₂) =>
      match s.tree with
      | some (some t) =>
        match s.parent_tree with
        | some (some pt) => .ok (some (decide (t = pt)), s, n₁ + n₂)
        | _ => .ok (none, s, n₁ + n₂)
      | _ => .ok (none, s, n₁ + n₂)

end State

/-- "Every slot already computed keeps its value": the per-slot monotonicity
of the cache across a call (no computed slot is ever recomputed or reset). -/
def cachePreserves (s s' : State) : Prop :=
  (∀ x, s.workspace_helper = some x → s'.workspace_helper = some x) ∧
  (∀ x, s.repo = some x → s'.repo = some x) ∧
  (∀ x, s.commit_id = some x → s'.commit_id = some x) ∧
  (∀ x, s.commit = some x → s'.commit = some x) ∧
  (∀ x, s.parent_commits = some x → s'.parent_commits = some x) ∧
  (∀ x, s.tree = some x → s'.tree = some x) ∧
  (∀ x, s.parent_tree = some x → s'.parent_tree = some x)

/-! ## The bookmark-proximity search (`src/main.rs` lines 180-276)

The jj engine supplies the commit graph and the revset evaluation; they are
modelled by a `RepoGraph` (finite commit list, parent function, the
working-copy commit, a committer timestamp for `latest()`, and the local and
remote bookmark tables of the `View`).  Backward reachability is computed by
a fuelled saturation with fuel `|commits|`, which reaches every ancestor in
a well-formed graph (each step adds all parents of the frontier).

Revset constructs used by `find_parent_bookmarks`:

* `"@"` evaluates to the working-copy commit;
* `"::@-"` is everything reachable backward from the parents of `@`;
* `bookmarks()` is the set of commits carrying at least one local bookmark;
* `heads(S)` keeps the commits of `S` that have no proper descendant in `S`;
* `latest(S)` keeps the single most recent commit by timestamp (ties broken
  deterministically by the engine; the model keeps the first maximal one);
* `"t::@"` is the set of commits that are descendants of `t` and ancestors
  of `@`, both inclusive. -/

structure RepoGraph where
  commits : List CIdT
  parents : CIdT → List CIdT
  /-- the working-copy commit (`"@"`) -/
  wc : CIdT
  /-- committer timestamp, used by `latest()` -/
  ts : CIdT → Nat
  /-- `view.local_bookmarks_for_commit`: local bookmark names on a commit -/
  localBk : CIdT → List String
  /-- `view.all_remote_bookmarks()`: (name, remote, target ids of the remote ref) -/
  remoteBk : List (String × String × List CIdT)

/-- One saturation step: keep the frontier and add every parent. -/
def stepOnce (g : RepoGraph) (s : List CIdT) : List CIdT :=
  (s ++ s.flatMap g.parents).dedup

/-- Fuelled backward-reachability closure. -/
def reachAux (g : RepoGraph) : Nat → List CIdT → List CIdT
  | 0, s => s.dedup
  | n + 1, s => reachAux g n (stepOnce g s)

/-- `::c`: the commits reachable backward from `c`, `c` included. -/
def ancestorsOf (g : RepoGraph) (c : CIdT) : List CIdT :=
  reachAux g g.commits.length [c]

/-- `::@-`: the commits reachable backward from the parents of the
working-copy commit. -/
def ancestorsOfWcParents (g : RepoGraph) : List CIdT :=
  reachAux g g.commits.length (g.parents g.wc)

/-- `::@- & bookmarks()`: the ancestors of `@`'s parents that carry a local
bookmark. -/
def bookmarkedWcParentAncestors (g : RepoGraph) : List CIdT :=
  (ancestorsOfWcParents g).filter fun c => !(g.localBk c).isEmpty

/-- `heads(S)`: the commits of `S` with no proper descendant in `S`. -/
def headsOf (g : RepoGraph) (s : List CIdT) : List CIdT :=
  s.filter fun c => !(s.any fun d => decide (d ≠ c) && (ancestorsOf g d).contains c)

/-- `latest(S)`: the most recent commit of `S` by committer timestamp
(`latest` with count 1; the engine's deterministic tie-break is modelled as
keeping the earliest maximal element). -/
def latestOf (g : RepoGraph) (s : List CIdT) : List CIdT :=
  match s with
  | [] => []
  | x :: xs => [xs.foldl (fun a b => if g.ts a < g.ts b then b else a) x]

/-- `"t::@"`: descendants of `t` that are ancestors of `@`, both inclusive. -/
def revsetRange (g : RepoGraph) (t : CIdT) : List CIdT :=
  (ancestorsOf g g.wc).filter fun c => (ancestorsOf g c).contains t

/-- `BookmarkConfig` (`src/config.rs` lines 71-97).  A `Glob` is opaque to
the claims; each exclusion pattern is modelled as the predicate its
`matches` method computes. -/
structure BookmarkConfig where
  search_depth : Nat
  exclude : List (String → Bool)

/-- The `BTreeMap<String, usize>` of found bookmarks, as a
name-sorted association list.  `insert` replaces the value of an existing
key. -/
def bmInsert (k : String) (v : Nat) : List (String × Nat) → List (String × Nat)
  | [] => [(k, v)]
  | (k', v') :: rest =>
    if k < k' then (k, v) :: (k', v') :: rest
    else if k = k' then (k, v) :: rest
    else (k', v') :: bmInsert k v rest

/-- `collect_bookmarks_for_commit` (`src/main.rs` lines 235-276): insert
every non-excluded local bookmark of the commit at the given distance; then
every remote bookmark targeting the commit whose bare name is not already a
key of the map, rendered `name@remote`, unless excluded.  Returns the map
and whether anything was inserted. -/
def collect_bookmarks_for_commit (g : RepoGraph) (config : BookmarkConfig)
    (commit_id : CIdT) (bookmarks : List (String × Nat)) (distance : Nat) :
    List (String × Nat) × Bool :=
  let afterLocal :=
    (g.localBk commit_id).foldl
      (fun (acc : List (String × Nat) × Bool) name =>
        if config.exclude.any (fun glob => glob name) then acc
        else (bmInsert name distance acc.1, true))
      (bookmarks, false)
  let local_names := afterLocal.1.map Prod.fst
  g.remoteBk.foldl
    (fun (acc : List (String × Nat) × Bool) rb =>
      if rb.2.2.contains commit_id then
        if local_names.contains rb.1 then acc
        else
          let name := rb.1 ++ "@" ++ rb.2.1
          if config.exclude.any (fun glob => glob name) then acc
          else (bmInsert name distance acc.1, true)
      else acc)
    afterLocal

/-- `find_parent_bookmarks` (`src/main.rs` lines 180-232): collect the
bookmarks on `@` at distance 0; if any were found, stop.  Otherwise evaluate
`latest((heads(::@- & bookmarks())))`; if it is empty, return the (empty)
map; otherwise collect the bookmarks on the single target at distance
`count(target::@) - 1` (saturating).  Note that the evaluation nowhere
consults `config.search_depth`. -/
def find_parent_bookmarks (g : RepoGraph) (config : BookmarkConfig) :
    List (String × Nat) :=
  let wc_ids : List CIdT := [g.wc]
  let first :=
    match wc_ids.head? with
    | some wc_id => collect_bookmarks_for_commit g config wc_id [] 0
    | none => ([], false)
  if first.2 then first.1
  else
    let commit_ids := latestOf g (headsOf g (bookmarkedWcParentAncestors g))
    match commit_ids.head? with
    | none => first.1
    | some target_id =>
      let distance := (revsetRange g target_id).length - 1
      (collect_bookmarks_for_commit g config target_id first.1 distance).1

/-! ## Bookmark rendering (`Bookmarks::print`, `src/config/bookmarks.rs` lines 92-150)

The found map is regrouped into a `BTreeMap<usize, BTreeSet<&String>>`
(distance-sorted groups of name-sorted, deduplicated name sets) and printed
distance group by distance group; a configured `max_bookmarks` stops the
loop after that many names and prints the ellipsis instead of the rest. -/

/-- `BTreeSet<&String>::insert`: sorted, deduplicating insert. -/
def setInsert (n : String) : List String → List String
  | [] => [n]
  | x :: xs =>
    if n < x then n :: x :: xs
    else if n = x then x :: xs
    else x :: setInsert n xs

/-- `ordered.entry(behind).and_modify(insert).or_insert(singleton)`:
distance-sorted groups of name sets. -/
def groupInsert (d : Nat) (n : String) : List (Nat × List String) → List (Nat × List String)
  | [] => [(d, [n])]
  | (k, ns) :: rest =>
    if d < k then (d, [n]) :: (k, ns) :: rest
    else if d = k then (k, setInsert n ns) :: rest
    else (k, ns) :: groupInsert d n rest

/-- The `BTreeMap<usize, BTreeSet<&String>>` built by the first loop of
`Bookmarks::print`. -/
def orderedGroups (bookmarks : List (String × Nat)) : List (Nat × List String) :=
  bookmarks.foldl (fun acc p => groupInsert p.2 p.1 acc) []

/-- The display order: distance groups ascending, names ascending within a
group. -/
def flatGroups (l : List (Nat × List String)) : List (String × Nat) :=
  l.flatMap fun g => g.2.map fun n => (n, g.1)

/-- The printing loop of `Bookmarks::print`: `counter` counts the names
printed so far; when `max_bookmarks` is configured and the counter has
reached it before printing the next name, the ellipsis is printed and the
outer loop is left.  Returns the printed (name, distance) pairs in order and
whether the ellipsis was printed. -/
def printLoop (max_bookmarks : Option Nat) : Nat → List (String × Nat) →
    List (String × Nat) × Bool
  | _, [] => ([], false)
  | counter, x :: rest =>
    match max_bookmarks with
    | some number =>
      if counter ≥ number then ([], true)
      else
        let r := printLoop (some number) (counter + 1) rest
        (x :: r.1, r.2)
    | none =>
      let r := printLoop none (counter + 1) rest
      (x :: r.1, r.2)

/-- The (name, distance) pairs printed by `Bookmarks::print` for a resolved
bookmark map, together with the ellipsis flag. -/
def bookmarksPrinted (bookmarks : List (String × Nat)) (max_bookmarks : Option Nat) :
    List (String × Nat) × Bool :=
  printLoop max_bookmarks 0 (flatGroups (orderedGroups bookmarks))

/-- The order in which `Bookmarks::print` emits bookmarks: by distance
ascending, then by name ascending. -/
def bmDisplayLt (a b : String × Nat) : Prop :=
  a.2 < b.2 ∨ (a.2 = b.2 ∧ a.1 < b.1)

/-! ## Short-id rendering (`Commit::print`, `src/config/commit.rs` lines 105-132)

`Commit::print` takes `&id.to_string()[..8]` and `split_at(idx)` where `idx`
is the engine-computed shortest-unique-prefix length.  Both operations can
panic: the slice when the string has fewer than 8 characters (ids always
have 32 or 40), the split when `idx > 8`.  A panicking evaluation is
modelled as `none`. -/

/-- Length of the common prefix of two strings (as character lists). -/
def commonPrefixLen : List Char → List Char → Nat
  | a :: as, b :: bs => if a = b then commonPrefixLen as bs + 1 else 0
  | _, _ => 0

/-- Modelled from the jj engine (`shortest_unique_prefix_len` of the repo
index, reached through `IdPrefixIndex::empty().shortest_commit_prefix_len` /
`shortest_change_prefix_len`): the shortest length that distinguishes `id`
from every other id in the repository, i.e. one more than the longest common
prefix with any other id. -/
def shortestUniquePrefixLen (others : List (List Char)) (id : List Char) : Nat :=
  (others.foldl (fun m o => max m (commonPrefixLen id o)) 0) + 1

/-- The id fragment pair emitted by `Commit::print`:
`let short = &id.to_string()[..8]; let (unique, non_unique) = short.split_at(idx)`.
`none` models a panic of the unguarded slice or split. -/
def renderShortId (idStr : List Char) (idx : Nat) : Option (List Char × List Char) :=
  if idStr.length < 8 then none
  else
    let short := idStr.take 8
    if idx ≤ short.length then some (short.take idx, short.drop idx) else none

/-! ## The watchdog completion flag (`Config::print`, `src/config.rs` lines 100-180)

`Config::print` creates `done = Arc::new(AtomicBool::new(false))`, clones it
into the watchdog thread, renders all modules, optionally prints the final
style reset, and returns.  The observable actions of the primary thread are
modelled as an event trace; the source contains **no** store to `done`
anywhere (`done2.load` in the watchdog is the only other use), so the trace
of a run never contains a `storeDone` event, whatever the modules write. -/

inductive PEvent where
  | writeOut (chunk : String)
  | storeDone
deriving DecidableEq, Repr

/-- The event trace of the primary thread in `Config::print`
(`src/config.rs` lines 120-179): one `writeOut` per chunk written by the
module loop and the optional final reset; no other action touches the shared
flag. -/
def configPrintEvents (chunks : List String) : List PEvent :=
  chunks.map PEvent.writeOut

/-- The value of the `done` flag (initialised `false`) after a trace of
primary-thread events. -/
def doneFlagAfter (events : List PEvent) : Bool :=
  events.any fun ev => ev matches PEvent.storeDone

/-- The watchdog body (`src/config.rs` lines 110-118): after the sleep, it
emits the style reset and a space and terminates the process exactly when
the flag is still unset.  Returns `true` iff it terminates the process. -/
def watchdogTerminates (doneFlag : Bool) : Bool := !doneFlag

/-! ## Concrete instances used to exercise the theorems -/

/-- A concrete engine whose primitives all succeed. -/
def engW : Engine :=
  { workspaceHelperSnapshot := .ok 7
    workspaceHelperNoSnapshot := .ok 8
    repoOf := fun w => w + 10
    wcCommitId := fun _ _ => some 1
    getCommit := fun _ cid => .ok (cid + 100)
    parentsOf := fun _ => .ok []
    parentTreeOf := fun _ _ => .ok 5
    treeOf := fun _ => .ok 5
    copyRecordsFor := fun _ _ => .ok 0
    calcDiffStats := fun _ _ _ _ => .ok 3 }

/-- A cache state with every slot computed-present. -/
def sFull : State :=
  { snapshot := true, workspace_helper := some 7, repo := some 17,
    commit_id := some (some 1), commit := some (some 101),
    parent_commits := some [], tree := some (some 5), parent_tree := some (some 5) }

/-- A cache state whose commit-dependent slots are computed-absent. -/
def sAbsent : State :=
  { snapshot := true, workspace_helper := some 7, repo := some 17,
    commit_id := some none, commit := some none,
    parent_commits := some [], tree := some none, parent_tree := some none }

/-- An exclusion-free bookmark configuration with the claimed search depth 1. -/
def cfgDepth1 : BookmarkConfig := { search_depth := 1, exclude := [] }

/-- A linear history `2 ← 1 ← 0(@)` whose only bookmark sits two steps
behind the working copy — outside a search depth of 1. -/
def gChain : RepoGraph :=
  { commits := [0, 1, 2]
    parents := fun c => if c = 0 then [1] else if c = 1 then [2] else []
    wc := 0
    ts := fun _ => 0
    localBk := fun c => if c = 2 then ["b"] else []
    remoteBk := [] }

/-- A merge history: `@ = 0` has parents `1` and `2`, and `2`'s parent is
`1`; the only bookmark sits on `1`, a *direct parent* of the working copy,
yet the range `1::@` is `{1, 2, 0}`. -/
def gMerge : RepoGraph :=
  { commits := [0, 1, 2]
    parents := fun c => if c = 0 then [1, 2] else if c = 2 then [1] else []
    wc := 0
    ts := fun _ => 0
    localBk := fun c => if c = 1 then ["m"] else []
    remoteBk := [] }

/-- A one-commit repository whose working copy carries a local bookmark. -/
def gWcBk : RepoGraph :=
  { commits := [0]
    parents := fun _ => []
    wc := 0
    ts := fun _ => 0
    localBk := fun c => if c = 0 then ["x"] else []
    remoteBk := [] }

/-- A bookmark-free repository (single commit, no bookmarks at all). -/
def gEmptyBk : RepoGraph :=
  { commits := [0]
    parents := fun _ => []
    wc := 0
    ts := fun _ => 0
    localBk := fun _ => []
    remoteBk := [] }

/-- A 40-character commit-id string. -/
def idA : List Char :=
  List.replicate 9 'a' ++ ['0'] ++ List.replicate 30 'c'

/-- Another 40-character commit-id string sharing its first 9 characters
with `idA`. -/
def idB : List Char :=
  List.replicate 9 'a' ++ ['1'] ++ List.replicate 30 'c'

/-! ## Theorems -/

theorem option_or_or {α : Type} (a b : Option α) : (a.or b).or b = a.or b := by
  cases a <;> cases b <;> rfl

/-- C5: style merging is idempotent — `merge(merge(s, f), f) = merge(s, f)` —
and every field of `merge(s, f)` (foreground color, background color, and
each of the eight optional boolean attributes) equals `s`'s field when
present, else `f`'s field. -/
theorem merge_with_fallback_idempotent_fieldwise (s f : Style) :
    (s.merge_with_fallback (some f)).merge_with_fallback (some f) =
      s.merge_with_fallback (some f) ∧
    fieldMerged s.color f.color (s.merge_with_fallback (some f)).color ∧
    fieldMerged s.bg_color f.bg_color (s.merge_with_fallback (some f)).bg_color ∧
    fieldMerged s.attributes.bold f.attributes.bold
      (s.merge_with_fallback (some f)).attributes.bold ∧
    fieldMerged s.attributes.dimmed f.attributes.dimmed
      (s.merge_with_fallback (some f)).attributes.dimmed ∧
    fieldMerged s.attributes.italic f.attributes.italic
      (s.merge_with_fallback (some f)).attributes.italic ∧
    fieldMerged s.attributes.underline f.attributes.underline
      (s.merge_with_fallback (some f)).attributes.underline ∧
    fieldMerged s.attributes.blink f.attributes.blink
      (s.merge_with_fallback (some f)).attributes.blink ∧
    fieldMerged s.attributes.reverse f.attributes.reverse
      (s.merge_with_fallback (some f)).attributes.reverse ∧
    fieldMerged s.attributes.hidden f.attributes.hidden
      (s.merge_with_fallback (some f)).attributes.hidden ∧
    fieldMerged s.attributes.strikethrough f.attributes.strikethrough
      (s.merge_with_fallback (some f)).attributes.strikethrough := by
  refine ⟨?_, ?_, ?_, ?_, ?_, ?_, ?_, ?_, ?_, ?_, ?_⟩
  · simp [Style.merge_with_fallback, option_or_or]
  all_goals exact fieldMerged_or _ _

/-- C9: when two consecutive spans resolve (after merging with their
fallbacks) to the same terminal style, the transition prefix emitted for the
second span is the empty string — no escape codes are written between
them. -/
theorem identical_resolved_styles_empty_prefix (s₁ s₂ : Style)
    (f₁ f₂ : Option Style) (prev0 : Option NuStyle)
    (h : (s₂.merge_with_fallback f₂).toNu = (s₁.merge_with_fallback f₁).toNu) :
    (Style.format s₂ f₂ (Style.format s₁ f₁ prev0).2).1 = "" := by
  simp [Style.format, NuStyle.infixStr, Difference.between, h]

theorem identical_resolved_styles_empty_prefix_witness :
    (({} : Style).merge_with_fallback none).toNu =
      (({} : Style).merge_with_fallback none).toNu ∧
    (Style.format {} none (Style.format {} none none).2).1 = "" :=
  ⟨rfl, identical_resolved_styles_empty_prefix {} {} none none none rfl⟩

/-- C3 (the code contradicts the claim): the primary thread of
`Config::print` never stores to the shared `done` flag — its event trace
contains no `storeDone` whatever the modules write — so the flag is still
`false` at any later point and the watchdog, whenever its timer fires while
the process is alive, emits the reset and the space and terminates the
process even though rendering has completed. -/
theorem watchdog_flag_never_set (chunks : List String) :
    doneFlagAfter (configPrintEvents chunks) = false ∧
    watchdogTerminates (doneFlagAfter (configPrintEvents chunks)) = true := by
  have h : doneFlagAfter (configPrintEvents chunks) = false := by
    simp only [doneFlagAfter, configPrintEvents, List.any_eq_false]
    intro c hc
    obtain ⟨a, -, rfl⟩ := List.mem_map.mp hc
    simp
  exact ⟨h, by rw [h]; rfl⟩

theorem bytes_take_boundary (name : List MChar) (k : Nat) :
    (bytesOf name).take (bytesOf (name.take k)).length = bytesOf (name.take k) := by
  have h : bytesOf name = bytesOf (name.take k) ++ bytesOf (name.drop k) := by
    rw [bytesOf, bytesOf, bytesOf, ← List.flatMap_append, List.take_append_drop]
  rw [h, List.take_left]

theorem strW_ansiCut_le (name : List MChar) (m : Nat) :
    strW (name.take (ansiCutLen name m)) ≤ m := by
  simp only [ansiCutLen]
  cases hl : ((List.range name.length).takeWhile fun k => strW (name.take k) < m).getLast? with
  | none => simp [strW]
  | some k =>
    have hk : k ∈ (List.range name.length).takeWhile fun k => strW (name.take k) < m := by
      obtain ⟨hne, rfl⟩ := List.mem_getLast?_eq_getLast hl
      exact List.getLast_mem hne
    have hp := List.mem_takeWhile_imp hk
    simp only [Option.getD_some]
    exact Nat.le_of_lt (by simpa using hp)

/-- C6: for every input, configured maximum display width, and quoting flag,
the output of `print_ansi_truncated` cuts only at character boundaries (the
byte slice equals the byte string of a whole-character prefix, so no
multi-byte character is split), the display width of the emitted text
(excluding ellipsis and quotes) is at most the configured maximum, the
ellipsis is appended exactly when the input's display width exceeds the
maximum, and the quotes surround the possibly-truncated text. -/
theorem print_ansi_truncated_spec (name : List MChar) (max_len : Nat) (q : Bool) :
    (∃ k, (print_ansi_truncated (some max_len) name q).core = name.take k ∧
        (bytesOf name).take (bytesOf (name.take k)).length = bytesOf (name.take k)) ∧
    strW (print_ansi_truncated (some max_len) name q).core ≤ max_len ∧
    ((print_ansi_truncated (some max_len) name q).ellipsis = decide (strW name > max_len)) ∧
    (q = true →
      (print_ansi_truncated (some max_len) name q).rendered.head? = some quoteChar ∧
      (print_ansi_truncated (some max_len) name q).rendered.getLast? = some quoteChar) := by
  by_cases h : strW name > max_len
  · simp only [print_ansi_truncated, if_pos h]
    refine ⟨⟨ansiCutLen name max_len, rfl, bytes_take_boundary _ _⟩,
      strW_ansiCut_le _ _, by simp [h], ?_⟩
    rintro rfl
    refine ⟨by simp [TruncOut.rendered], ?_⟩
    simp only [TruncOut.rendered, if_pos, List.cons_append, List.nil_append,
      List.singleton_append]
    rw [← List.cons_append, List.getLast?_append_of_ne_nil _ (by simp)]
    rfl
  · simp only [print_ansi_truncated, if_neg h]
    refine ⟨⟨name.length, by simp, bytes_take_boundary _ _⟩,
      Nat.le_of_not_lt h, by simp [h], ?_⟩
    rintro rfl
    refine ⟨by simp [TruncOut.rendered], ?_⟩
    simp only [TruncOut.rendered, if_pos, List.cons_append, List.nil_append,
      List.singleton_append]
    rw [← List.cons_append, List.getLast?_append_of_ne_nil _ (by simp)]
    rfl

theorem print_ansi_truncated_spec_witness :
    (true = true) ∧
    (print_ansi_truncated (some 1) [⟨1, [97]⟩, ⟨2, [196, 128]⟩] true).rendered.head? =
      some quoteChar :=
  ⟨rfl, ((print_ansi_truncated_spec [⟨1, [97]⟩, ⟨2, [196, 128]⟩] 1 true).2.2.2 rfl).1⟩

theorem cachePreserves_refl (s : State) : cachePreserves s s :=
  ⟨fun _ h => h, fun _ h => h, fun _ h => h, fun _ h => h, fun _ h => h,
   fun _ h => h, fun _ h => h⟩

theorem load_workspace_pres {e : Engine} {s s' : State} {n : Nat}
    (h : State.load_workspace e s = .ok (s', n)) : cachePreserves s s' := by
  unfold State.load_workspace at h
  split at h
  · simp only [Except.ok.injEq, Prod.mk.injEq] at h
    obtain ⟨rfl, rfl⟩ := h
    exact cachePreserves_refl s
  · next hc =>
    split at h
    · exact Except.noConfusion h
    · simp only [Except.ok.injEq, Prod.mk.injEq] at h
      obtain ⟨rfl, rfl⟩ := h
      exact ⟨fun x hx => by simp_all, fun _ hx => hx, fun _ hx => hx, fun _ hx => hx,
        fun _ hx => hx, fun _ hx => hx, fun _ hx => hx⟩

theorem workspace_helperA_spec {e : Engine} {s : State} {w : WSH} {s' : State} {n : Nat}
    (h : State.workspace_helperA e s = .ok (w, s', n)) :
    s'.workspace_helper = some w ∧ cachePreserves s s' := by
  unfold State.workspace_helperA at h
  cases hl : State.load_workspace e s with
  | error er => rw [hl] at h; exact Except.noConfusion h
  | ok t =>
    obtain ⟨s₁, n₁⟩ := t
    rw [hl] at h
    dsimp only at h
    cases hslot : s₁.workspace_helper with
    | none => rw [hslot] at h; exact Except.noConfusion h
    | some w' =>
      rw [hslot] at h
      simp only [Except.ok.injEq, Prod.mk.injEq] at h
      obtain ⟨rfl, rfl, rfl⟩ := h
      exact ⟨hslot, load_workspace_pres hl⟩

theorem workspace_helperA_cached {e : Engine} {s : State} {w : WSH}
    (h : s.workspace_helper = some w) :
    State.workspace_helperA e s = .ok (w, s, 0) := by
  unfold State.workspace_helperA State.load_workspace
  rw [if_pos (by simp [h])]
  simp [h]

theorem cachePreserves_trans {a b c : State}
    (h₁ : cachePreserves a b) (h₂ : cachePreserves b c) : cachePreserves a c :=
  ⟨fun x hx => h₂.1 x (h₁.1 x hx), fun x hx => h₂.2.1 x (h₁.2.1 x hx),
   fun x hx => h₂.2.2.1 x (h₁.2.2.1 x hx), fun x hx => h₂.2.2.2.1 x (h₁.2.2.2.1 x hx),
   fun x hx => h₂.2.2.2.2.1 x (h₁.2.2.2.2.1 x hx),
   fun x hx => h₂.2.2.2.2.2.1 x (h₁.2.2.2.2.2.1 x hx),
   fun x hx => h₂.2.2.2.2.2.2 x (h₁.2.2.2.2.2.2 x hx)⟩

theorem load_repo_pres {e : Engine} {s s' : State} {n : Nat}
    (h : State.load_repo e s = .ok (s', n)) : cachePreserves s s' := by
  unfold State.load_repo at h
  split at h
  · simp only [Except.ok.injEq, Prod.mk.injEq] at h
    obtain ⟨rfl, rfl⟩ := h
    exact cachePreserves_refl s
  · next hc =>
    cases hws : State.workspace_helperA e s with
    | error er => rw [hws] at h; exact Except.noConfusion h
    | ok t =>
      obtain ⟨w, s₁, n₁⟩ := t
      rw [hws] at h
      dsimp only at h
      simp only [Except.ok.injEq, Prod.mk.injEq] at h
      obtain ⟨rfl, rfl⟩ := h
      have hp := (workspace_helperA_spec hws).2
      exact ⟨fun x hx => hp.1 x hx, fun x hx => absurd (by simp [hx]) hc,
        fun x hx => hp.2.2.1 x hx, fun x hx => hp.2.2.2.1 x hx,
        fun x hx => hp.2.2.2.2.1 x hx, fun x hx => hp.2.2.2.2.2.1 x hx,
        fun x hx => hp.2.2.2.2.2.2 x hx⟩

theorem repoA_spec {e : Engine} {s : State} {r : RepoH} {s' : State} {n : Nat}
    (h : State.repoA e s = .ok (r, s', n)) :
    s'.repo = some r ∧ cachePreserves s s' := by
  unfold State.repoA at h
  cases hl : State.load_repo e s with
  | error er => rw [hl] at h; exact Except.noConfusion h
  | ok t =>
    obtain ⟨s₁, n₁⟩ := t
    rw [hl] at h
    dsimp only at h
    cases hslot : s₁.repo with
    | none => rw [hslot] at h; exact Except.noConfusion h
    | some r' =>
      rw [hslot] at h
      simp only [Except.ok.injEq, Prod.mk.injEq] at h
      obtain ⟨rfl, rfl, rfl⟩ := h
      exact ⟨hslot, load_repo_pres hl⟩

theorem repoA_cached {e : Engine} {s : State} {r : RepoH}
    (h : s.repo = some r) : State.repoA e s = .ok (r, s, 0) := by
  unfold State.repoA State.load_repo
  rw [if_pos (by simp [h])]
  simp [h]

theorem load_commit_id_pres {e : Engine} {s s' : State} {n : Nat}
    (h : State.load_commit_id e s = .ok (s', n)) : cachePreserves s s' := by
  unfold State.load_commit_id at h
  split at h
  · simp only [Except.ok.injEq, Prod.mk.injEq] at h
    obtain ⟨rfl, rfl⟩ := h
    exact cachePreserves_refl s
  · next hc =>
    cases hr : State.repoA e s with
    | error er => rw [hr] at h; exact Except.noConfusion h
    | ok t =>
      obtain ⟨r, s₁, n₁⟩ := t
      rw [hr] at h
      dsimp only at h
      cases hws : State.workspace_helperA e s₁ with
      | error er => rw [hws] at h; exact Except.noConfusion h
      | ok t₂ =>
        obtain ⟨w, s₂, n₂⟩ := t₂
        rw [hws] at h
        dsimp only at h
        simp only [Except.ok.injEq, Prod.mk.injEq] at h
        obtain ⟨rfl, rfl⟩ := h
        have hp := cachePreserves_trans (repoA_spec hr).2 (workspace_helperA_spec hws).2
        exact ⟨fun x hx => hp.1 x hx, fun x hx => hp.2.1 x hx,
          fun x hx => absurd (by simp [hx]) hc, fun x hx => hp.2.2.2.1 x hx,
          fun x hx => hp.2.2.2.2.1 x hx, fun x hx => hp.2.2.2.2.2.1 x hx,
          fun x hx => hp.2.2.2.2.2.2 x hx⟩

theorem commit_idA_spec {e : Engine} {s : State} {v : Option CIdT} {s' : State} {n : Nat}
    (h : State.commit_idA e s = .ok (v, s', n)) :
    s'.commit_id = some v ∧ cachePreserves s s' := by
  unfold State.commit_idA at h
  cases hl : State.load_commit_id e s with
  | error er => rw [hl] at h; exact Except.noConfusion h
  | ok t =>
    obtain ⟨s₁, n₁⟩ := t
    rw [hl] at h
    dsimp only at h
    cases hslot : s₁.commit_id with
    | none => rw [hslot] at h; exact Except.noConfusion h
    | some v' =>
      rw [hslot] at h
      simp only [Except.ok.injEq, Prod.mk.injEq] at h
      obtain ⟨rfl, rfl, rfl⟩ := h
      exact ⟨hslot, load_commit_id_pres hl⟩

theorem commit_idA_cached {e : Engine} {s : State} {v : Option CIdT}
    (h : s.commit_id = some v) : State.commit_idA e s = .ok (v, s, 0) := by
  unfold State.commit_idA State.load_commit_id
  rw [if_pos (by simp [h])]
  simp [h]

theorem load_commit_pres {e : Engine} {s s' : State} {n : Nat}
    (h : State.load_commit e s = .ok (s', n)) : cachePreserves s s' := by
  unfold State.load_commit at h
  split at h
  · simp only [Except.ok.injEq, Prod.mk.injEq] at h
    obtain ⟨rfl, rfl⟩ := h
    exact cachePreserves_refl s
  · next hc =>
    cases hr : State.repoA e s with
    | error er => rw [hr] at h; exact Except.noConfusion h
    | ok t =>
      obtain ⟨r, s₁, n₁⟩ := t
      rw [hr] at h
      dsimp only at h
      cases hcid : State.commit_idA e s₁ with
      | error er => rw [hcid] at h; exact Except.noConfusion h
      | ok t₂ =>
        obtain ⟨cid?, s₂, n₂⟩ := t₂
        rw [hcid] at h
        dsimp only at h
        have hp := cachePreserves_trans (repoA_spec hr).2 (commit_idA_spec hcid).2
        cases cid? with
        | none =>
          simp only [Except.ok.injEq, Prod.mk.injEq] at h
          obtain ⟨rfl, rfl⟩ := h
          exact ⟨fun x hx => hp.1 x hx, fun x hx => hp.2.1 x hx,
            fun x hx => hp.2.2.1 x hx, fun x hx => absurd (by simp [hx]) hc,
            fun x hx => hp.2.2.2.2.1 x hx, fun x hx => hp.2.2.2.2.2.1 x hx,
            fun x hx => hp.2.2.2.2.2.2 x hx⟩
        | some cid =>
          dsimp only at h
          cases hg : e.getCommit r cid with
          | error er => rw [hg] at h; exact Except.noConfusion h
          | ok c =>
            rw [hg] at h
            simp only [Except.ok.injEq, Prod.mk.injEq] at h
            obtain ⟨rfl, rfl⟩ := h
            exact ⟨fun x hx => hp.1 x hx, fun x hx => hp.2.1 x hx,
              fun x hx => hp.2.2.1 x hx, fun x hx => absurd (by simp [hx]) hc,
              fun x hx => hp.2.2.2.2.1 x hx, fun x hx => hp.2.2.2.2.2.1 x hx,
              fun x hx => hp.2.2.2.2.2.2 x hx⟩

theorem commitA_spec {e : Engine} {s : State} {v : Option CommitT} {s' : State} {n : Nat}
    (h : State.commitA e s = .ok (v, s', n)) :
    s'.commit = some v ∧ cachePreserves s s' := by
  unfold State.commitA at h
  cases hl : State.load_commit e s with
  | error er => rw [hl] at h; exact Except.noConfusion h
  | ok t =>
    obtain ⟨s₁, n₁⟩ := t
    rw [hl] at h
    dsimp only at h
    cases hslot : s₁.commit with
    | none => rw [hslot] at h; exact Except.noConfusion h
    | some v' =>
      rw [hslot] at h
      simp only [Except.ok.injEq, Prod.mk.injEq] at h
      obtain ⟨rfl, rfl, rfl⟩ := h
      exact ⟨hslot, load_commit_pres hl⟩

theorem commitA_cached {e : Engine} {s : State} {v : Option CommitT}
    (h : s.commit = some v) : State.commitA e s = .ok (v, s, 0) := by
  unfold State.commitA State.load_commit
  rw [if_pos (by simp [h])]
  simp [h]

theorem load_parent_commits_pres {e : Engine} {s s' : State} {n : Nat}
    (h : State.load_parent_commits e s = .ok (s', n)) : cachePreserves s s' := by
  unfold State.load_parent_commits at h
  split at h
  · simp only [Except.ok.injEq, Prod.mk.injEq] at h
    obtain ⟨rfl, rfl⟩ := h
    exact cachePreserves_refl s
  · next hc =>
    cases hcm : State.commitA e s with
    | error er => rw [hcm] at h; exact Except.noConfusion h
    | ok t =>
      obtain ⟨c?, s₁, n₁⟩ := t
      rw [hcm] at h
      dsimp only at h
      have hp := (commitA_spec hcm).2
      cases c? with
      | none =>
        simp only [Except.ok.injEq, Prod.mk.injEq] at h
        obtain ⟨rfl, rfl⟩ := h
        exact ⟨fun x hx => hp.1 x hx, fun x hx => hp.2.1 x hx,
          fun x hx => hp.2.2.1 x hx, fun x hx => hp.2.2.2.1 x hx,
          fun x hx => absurd (by simp [hx]) hc, fun x hx => hp.2.2.2.2.2.1 x hx,
          fun x hx => hp.2.2.2.2.2.2 x hx⟩
      | some c =>
        dsimp only at h
        cases hg : e.parentsOf c with
        | error er => rw [hg] at h; exact Except.noConfusion h
        | ok ps =>
          rw [hg] at h
          simp only [Except.ok.injEq, Prod.mk.injEq] at h
          obtain ⟨rfl, rfl⟩ := h
          exact ⟨fun x hx => hp.1 x hx, fun x hx => hp.2.1 x hx,
            fun x hx => hp.2.2.1 x hx, fun x hx => hp.2.2.2.1 x hx,
            fun x hx => absurd (by simp [hx]) hc, fun x hx => hp.2.2.2.2.2.1 x hx,
            fun x hx => hp.2.2.2.2.2.2 x hx⟩

theorem parent_commitsA_spec {e : Engine} {s : State} {v : List CommitT} {s' : State} {n : Nat}
    (h : State.parent_commitsA e s = .ok (v, s', n)) :
    s'.parent_commits = some v ∧ cachePreserves s s' := by
  unfold State.parent_commitsA at h
  cases hl : State.load_parent_commits e s with
  | error er => rw [hl] at h; exact Except.noConfusion h
  | ok t =>
    obtain ⟨s₁, n₁⟩ := t
    rw [hl] at h
    dsimp only at h
    cases hslot : s₁.parent_commits with
    | none => rw [hslot] at h; exact Except.noConfusion h
    | some v' =>
      rw [hslot] at h
      simp only [Except.ok.injEq, Prod.mk.injEq] at h
      obtain ⟨rfl, rfl, rfl⟩ := h
      exact ⟨hslot, load_parent_commits_pres hl⟩

theorem parent_commitsA_cached {e : Engine} {s : State} {v : List CommitT}
    (h : s.parent_commits = some v) : State.parent_commitsA e s = .ok (v, s, 0) := by
  unfold State.parent_commitsA State.load_parent_commits
  rw [if_pos (by simp [h])]
  simp [h]

theorem load_parent_tree_pres {e : Engine} {s s' : State} {n : Nat}
    (h : State.load_parent_tree e s = .ok (s', n)) : cachePreserves s s' := by
  unfold State.load_parent_tree at h
  split at h
  · simp only [Except.ok.injEq, Prod.mk.injEq] at h
    obtain ⟨rfl, rfl⟩ := h
    exact cachePreserves_refl s
  · next hc =>
    cases hr : State.repoA e s with
    | error er => rw [hr] at h; exact Except.noConfusion h
    | ok t =>
      obtain ⟨r, s₁, n₁⟩ := t
      rw [hr] at h
      dsimp only at h
      cases hcm : State.commitA e s₁ with
      | error er => rw [hcm] at h; exact Except.noConfusion h
      | ok t₂ =>
        obtain ⟨c?, s₂, n₂⟩ := t₂
        rw [hcm] at h
        dsimp only at h
        have hp := cachePreserves_trans (repoA_spec hr).2 (commitA_spec hcm).2
        cases c? with
        | none =>
          simp only [Except.ok.injEq, Prod.mk.injEq] at h
          obtain ⟨rfl, rfl⟩ := h
          exact ⟨fun x hx => hp.1 x hx, fun x hx => hp.2.1 x hx,
            fun x hx => hp.2.2.1 x hx, fun x hx => hp.2.2.2.1 x hx,
            fun x hx => hp.2.2.2.2.1 x hx, fun x hx => hp.2.2.2.2.2.1 x hx,
            fun x hx => absurd (by simp [hx]) hc⟩
        | some c =>
          dsimp only at h
          cases hg : e.parentTreeOf r c with
          | error er => rw [hg] at h; exact Except.noConfusion h
          | ok pt =>
            rw [hg] at h
            simp only [Except.ok.injEq, Prod.mk.injEq] at h
            obtain ⟨rfl, rfl⟩ := h
            exact ⟨fun x hx => hp.1 x hx, fun x hx => hp.2.1 x hx,
              fun x hx => hp.2.2.1 x hx, fun x hx => hp.2.2.2.1 x hx,
              fun x hx => hp.2.2.2.2.1 x hx, fun x hx => hp.2.2.2.2.2.1 x hx,
              fun x hx => absurd (by simp [hx]) hc⟩

theorem parent_treeA_spec {e : Engine} {s : State} {v : Option TreeT} {s' : State} {n : Nat}
    (h : State.parent_treeA e s = .ok (v, s', n)) :
    s'.parent_tree = some v ∧ cachePreserves s s' := by
  unfold State.parent_treeA at h
  cases hl : State.load_parent_tree e s with
  | error er => rw [hl] at h; exact Except.noConfusion h
  | ok t =>
    obtain ⟨s₁, n₁⟩ := t
    rw [hl] at h
    dsimp only at h
    cases hslot : s₁.parent_tree with
    | none => rw [hslot] at h; exact Except.noConfusion h
    | some v' =>
      rw [hslot] at h
      simp only [Except.ok.injEq, Prod.mk.injEq] at h
      obtain ⟨rfl, rfl, rfl⟩ := h
      exact ⟨hslot, load_parent_tree_pres hl⟩

theorem parent_treeA_cached {e : Engine} {s : State} {v : Option TreeT}
    (h : s.parent_tree = some v) : State.parent_treeA e s = .ok (v, s, 0) := by
  unfold State.parent_treeA State.load_parent_tree
  rw [if_pos (by simp [h])]
  simp [h]

theorem load_tree_pres {e : Engine} {s s' : State} {n : Nat}
    (h : State.load_tree e s = .ok (s', n)) : cachePreserves s s' := by
  unfold State.load_tree at h
  split at h
  · simp only [Except.ok.injEq, Prod.mk.injEq] at h
    obtain ⟨rfl, rfl⟩ := h
    exact cachePreserves_refl s
  · next hc =>
    cases hcm : State.commitA e s with
    | error er => rw [hcm] at h; exact Except.noConfusion h
    | ok t =>
      obtain ⟨c?, s₁, n₁⟩ := t
      rw [hcm] at h
      dsimp only at h
      have hp := (commitA_spec hcm).2
      cases c? with
      | none =>
        simp only [Except.ok.injEq, Prod.mk.injEq] at h
        obtain ⟨rfl, rfl⟩ := h
        exact ⟨fun x hx => hp.1 x hx, fun x hx => hp.2.1 x hx,
          fun x hx => hp.2.2.1 x hx, fun x hx => hp.2.2.2.1 x hx,
          fun x hx => hp.2.2.2.2.1 x hx, fun x hx => absurd (by simp [hx]) hc,
          fun x hx => hp.2.2.2.2.2.2 x hx⟩
      | some c =>
        dsimp only at h
        cases hg : e.treeOf c with
        | error er => rw [hg] at h; exact Except.noConfusion h
        | ok tr =>
          rw [hg] at h
          simp only [Except.ok.injEq, Prod.mk.injEq] at h
          obtain ⟨rfl, rfl⟩ := h
          exact ⟨fun x hx => hp.1 x hx, fun x hx => hp.2.1 x hx,
            fun x hx => hp.2.2.1 x hx, fun x hx => hp.2.2.2.1 x hx,
            fun x hx => hp.2.2.2.2.1 x hx, fun x hx => absurd (by simp [hx]) hc,
            fun x hx => hp.2.2.2.2.2.2 x hx⟩

theorem treeA_spec {e : Engine} {s : State} {v : Option TreeT} {s' : State} {n : Nat}
    (h : State.treeA e s = .ok (v, s', n)) :
    s'.tree = some v ∧ cachePreserves s s' := by
  unfold State.treeA at h
  cases hl : State.load_tree e s with
  | error er => rw [hl] at h; exact Except.noConfusion h
  | ok t =>
    obtain ⟨s₁, n₁⟩ := t
    rw [hl] at h
    dsimp only at h
    cases hslot : s₁.tree with
    | none => rw [hslot] at h; exact Except.noConfusion h
    | some v' =>
      rw [hslot] at h
      simp only [Except.ok.injEq, Prod.mk.injEq] at h
      obtain ⟨rfl, rfl, rfl⟩ := h
      exact ⟨hslot, load_tree_pres hl⟩

theorem treeA_cached {e : Engine} {s : State} {v : Option TreeT}
    (h : s.tree = some v) : State.treeA e s = .ok (v, s, 0) := by
  unfold State.treeA State.load_tree
  rw [if_pos (by simp [h])]
  simp [h]

/-- C4: every repository-state cache accessor (workspace helper, repo,
commit id, commit, parent commits, tree, parent tree) is idempotent: a
successful call stores its result, and calling the same accessor again on
the resulting state returns the same value and the same state with **zero**
engine invocations; moreover every slot that was already computed before the
call keeps its value (computed slots — including computed-to-absent ones —
are never recomputed or reset). -/
theorem state_accessors_idempotent (e : Engine) (s : State) :
    (∀ w s' n, State.workspace_helperA e s = .ok (w, s', n) →
      State.workspace_helperA e s' = .ok (w, s', 0) ∧ cachePreserves s s') ∧
    (∀ r s' n, State.repoA e s = .ok (r, s', n) →
      State.repoA e s' = .ok (r, s', 0) ∧ cachePreserves s s') ∧
    (∀ v s' n, State.commit_idA e s = .ok (v, s', n) →
      State.commit_idA e s' = .ok (v, s', 0) ∧ cachePreserves s s') ∧
    (∀ v s' n, State.commitA e s = .ok (v, s', n) →
      State.commitA e s' = .ok (v, s', 0) ∧ cachePreserves s s') ∧
    (∀ v s' n, State.parent_commitsA e s = .ok (v, s', n) →
      State.parent_commitsA e s' = .ok (v, s', 0) ∧ cachePreserves s s') ∧
    (∀ v s' n, State.treeA e s = .ok (v, s', n) →
      State.treeA e s' = .ok (v, s', 0) ∧ cachePreserves s s') ∧
    (∀ v s' n, State.parent_treeA e s = .ok (v, s', n) →
      State.parent_treeA e s' = .ok (v, s', 0) ∧ cachePreserves s s') := by
  refine ⟨?_, ?_, ?_, ?_, ?_, ?_, ?_⟩
  · intro v s' n h
    obtain ⟨hs, hp⟩ := workspace_helperA_spec h
    exact ⟨workspace_helperA_cached hs, hp⟩
  · intro v s' n h
    obtain ⟨hs, hp⟩ := repoA_spec h
    exact ⟨repoA_cached hs, hp⟩
  · intro v s' n h
    obtain ⟨hs, hp⟩ := commit_idA_spec h
    exact ⟨commit_idA_cached hs, hp⟩
  · intro v s' n h
    obtain ⟨hs, hp⟩ := commitA_spec h
    exact ⟨commitA_cached hs, hp⟩
  · intro v s' n h
    obtain ⟨hs, hp⟩ := parent_commitsA_spec h
    exact ⟨parent_commitsA_cached hs, hp⟩
  · intro v s' n h
    obtain ⟨hs, hp⟩ := treeA_spec h
    exact ⟨treeA_cached hs, hp⟩
  · intro v s' n h
    obtain ⟨hs, hp⟩ := parent_treeA_spec h
    exact ⟨parent_treeA_cached hs, hp⟩

theorem state_accessors_idempotent_witness :
    State.workspace_helperA engW sFull = .ok (7, sFull, 0) ∧
    State.treeA engW sFull = .ok (some 5, sFull, 0) :=
  ⟨((state_accessors_idempotent engW sFull).1 7 sFull 0 (by rfl)).1,
   ((state_accessors_idempotent engW sFull).2.2.2.2.2.1 (some 5) sFull 0 (by rfl)).1⟩

/-- C8: after the tree loads, `commit_is_empty` returns the structural
equality of the working-copy tree and parent tree when both are
computed-present, and returns `Ok(None)` — a normal return, not an error —
when either is computed-absent; `diff_stats` likewise returns `Ok(None)`
when either tree is computed-absent. -/
theorem commit_is_empty_diff_stats_spec (e : Engine) (s s₁ s₂ : State) (n₁ n₂ : Nat)
    (h₁ : State.load_parent_tree e s = .ok (s₁, n₁))
    (h₂ : State.load_tree e s₁ = .ok (s₂, n₂)) :
    (∀ t pt, s₂.tree = some (some t) → s₂.parent_tree = some (some pt) →
      State.commit_is_empty e s = .ok (some (decide (t = pt)), s₂, n₁ + n₂)) ∧
    ((s₂.tree = some none ∨ s₂.parent_tree = some none) →
      State.commit_is_empty e s = .ok (none, s₂, n₁ + n₂)) ∧
    (∀ r s₃ n₃, State.repoA e s₂ = .ok (r, s₃, n₃) →
      (s₃.tree = some none ∨ s₃.parent_tree = some none) →
      State.diff_stats e s = .ok (none, s₃, n₁ + n₂ + n₃)) := by
  refine ⟨?_, ?_, ?_⟩
  · intro t pt ht hpt
    unfold State.commit_is_empty
    rw [h₁]
    dsimp only
    rw [h₂]
    dsimp only
    rw [ht, hpt]
  · intro habs
    unfold State.commit_is_empty
    rw [h₁]
    dsimp only
    rw [h₂]
    dsimp only
    rcases habs with h | h
    · rw [h]
    · cases htr : s₂.tree with
      | none => rfl
      | some tr? =>
        cases tr? with
        | none => rfl
        | some tr => rw [h]
  · intro r s₃ n₃ hr habs
    unfold State.diff_stats
    rw [h₁]
    dsimp only
    rw [h₂]
    dsimp only
    rw [hr]
    dsimp only
    cases hcm : s₃.commit with
    | none => rfl
    | some c? =>
      cases c? with
      | none => rfl
      | some c =>
        rcases habs with h | h
        · rw [h]
        · cases htr : s₃.tree with
          | none => rfl
          | some tr? =>
            cases tr? with
            | none => rfl
            | some tr => rw [h]

theorem commit_is_empty_diff_stats_spec_witness :
    State.commit_is_empty engW sFull = .ok (some true, sFull, 0) ∧
    State.diff_stats engW sAbsent = .ok (none, sAbsent, 0) :=
  ⟨(commit_is_empty_diff_stats_spec engW sFull sFull sFull 0 0 (by rfl) (by rfl)).1
      5 5 (by rfl) (by rfl),
   (commit_is_empty_diff_stats_spec engW sAbsent sAbsent sAbsent 0 0 (by rfl) (by rfl)).2.2
      17 sAbsent 0 (by rfl) (Or.inl (by rfl))⟩

theorem mem_setInsert (n x : String) : ∀ l : List String,
    x ∈ setInsert n l ↔ x = n ∨ x ∈ l
  | [] => by simp [setInsert]
  | y :: ys => by
    simp only [setInsert]
    split
    · simp [List.mem_cons]
    · split
      · next h1 h2 =>
        subst h2
        simp only [List.mem_cons]
        tauto
      · simp only [List.mem_cons, mem_setInsert n x ys]
        tauto

theorem setInsert_pairwise (n : String) : ∀ {l : List String},
    l.Pairwise (· < ·) → (setInsert n l).Pairwise (· < ·)
  | [], _ => by simp [setInsert]
  | y :: ys, h => by
    obtain ⟨hy, hys⟩ := List.pairwise_cons.mp h
    simp only [setInsert]
    split
    · next hlt =>
      refine List.pairwise_cons.mpr ⟨?_, h⟩
      intro b hb
      rcases List.mem_cons.mp hb with rfl | hb'
      · exact hlt
      · exact lt_trans hlt (hy b hb')
    · split
      · exact h
      · next h1 h2 =>
        refine List.pairwise_cons.mpr ⟨?_, setInsert_pairwise n hys⟩
        intro b hb
        rcases (mem_setInsert n b ys).mp hb with rfl | hb'
        · exact lt_of_le_of_ne (le_of_not_lt h1) (fun he => h2 he.symm)
        · exact hy b hb'

theorem key_mem_groupInsert (d : Nat) (n : String) (k : Nat) :
    ∀ l : List (Nat × List String),
      k ∈ (groupInsert d n l).map Prod.fst → k = d ∨ k ∈ l.map Prod.fst
  | [] => by simp [groupInsert]
  | (k', ns') :: rest => by
    simp only [groupInsert]
    split
    · simp only [List.map_cons, List.mem_cons]
      tauto
    · split
      · next h1 h2 =>
        subst h2
        simp only [List.map_cons, List.mem_cons]
        tauto
      · simp only [List.map_cons, List.mem_cons]
        intro h
        rcases h with rfl | h'
        · tauto
        · rcases key_mem_groupInsert d n k rest h' with rfl | hh
          · tauto
          · tauto

theorem groupInsert_keys_pairwise (d : Nat) (n : String) : ∀ {l : List (Nat × List String)},
    (l.map Prod.fst).Pairwise (· < ·) → ((groupInsert d n l).map Prod.fst).Pairwise (· < ·)
  | [], _ => by simp [groupInsert]
  | (k', ns') :: rest, h => by
    simp only [List.map_cons] at h
    obtain ⟨hk, hrest⟩ := List.pairwise_cons.mp h
    simp only [groupInsert]
    split
    · next hlt =>
      simp only [List.map_cons]
      refine List.pairwise_cons.mpr ⟨?_, h⟩
      intro b hb
      rcases List.mem_cons.mp hb with rfl | hb'
      · exact hlt
      · exact lt_trans hlt (hk b hb')
    · split
      · next h1 h2 =>
        simp only [List.map_cons]
        exact List.pairwise_cons.mpr ⟨hk, hrest⟩
      · next h1 h2 =>
        simp only [List.map_cons]
        refine List.pairwise_cons.mpr ⟨?_, groupInsert_keys_pairwise d n hrest⟩
        intro b hb
        rcases key_mem_groupInsert d n b rest hb with rfl | hb'
        · exact lt_of_le_of_ne (le_of_not_lt h1) (fun he => h2 he.symm)
        · exact hk b hb'

theorem groupInsert_sets_pairwise (d : Nat) (n : String) : ∀ {l : List (Nat × List String)},
    (∀ g ∈ l, g.2.Pairwise (· < ·)) → ∀ g ∈ groupInsert d n l, g.2.Pairwise (· < ·)
  | [], _ => by
    simp only [groupInsert]
    intro g hg
    rcases List.mem_singleton.mp hg with rfl
    simp
  | (k', ns') :: rest, h => by
    simp only [groupInsert]
    split
    · intro g hg
      rcases List.mem_cons.mp hg with rfl | hg'
      · simp
      · exact h g hg'
    · split
      · intro g hg
        rcases List.mem_cons.mp hg with rfl | hg'
        · exact setInsert_pairwise n (h (k', ns') (by simp))
        · exact h g (List.mem_cons_of_mem _ hg')
      · intro g hg
        rcases List.mem_cons.mp hg with rfl | hg'
        · exact h _ (List.mem_cons_self _ _)
        · exact groupInsert_sets_pairwise d n (fun g' hg' => h g' (List.mem_cons_of_mem _ hg')) g hg'

theorem orderedGroups_fold_wf : ∀ (bm : List (String × Nat)) (acc : List (Nat × List String)),
    (acc.map Prod.fst).Pairwise (· < ·) → (∀ g ∈ acc, g.2.Pairwise (· < ·)) →
    ((bm.foldl (fun a p => groupInsert p.2 p.1 a) acc).map Prod.fst).Pairwise (· < ·) ∧
    (∀ g ∈ bm.foldl (fun a p => groupInsert p.2 p.1 a) acc, g.2.Pairwise (· < ·))
  | [], _, h1, h2 => ⟨h1, h2⟩
  | p :: rest, _, h1, h2 =>
    orderedGroups_fold_wf rest _ (groupInsert_keys_pairwise p.2 p.1 h1)
      (groupInsert_sets_pairwise p.2 p.1 h2)

theorem orderedGroups_wf (bm : List (String × Nat)) :
    ((orderedGroups bm).map Prod.fst).Pairwise (· < ·) ∧
    (∀ g ∈ orderedGroups bm, g.2.Pairwise (· < ·)) :=
  orderedGroups_fold_wf bm [] (by simp) (by simp)

theorem groupInsert_elim (d : Nat) (n m : String) (k : Nat) :
    ∀ l : List (Nat × List String),
      (∃ ns, (k, ns) ∈ groupInsert d n l ∧ m ∈ ns) →
      (m = n ∧ k = d) ∨ (∃ ns, (k, ns) ∈ l ∧ m ∈ ns)
  | [] => by
    rintro ⟨ns, hns, hm⟩
    simp only [groupInsert, List.mem_singleton, Prod.mk.injEq] at hns
    obtain ⟨rfl, rfl⟩ := hns
    left
    exact ⟨List.mem_singleton.mp hm, rfl⟩
  | (k', ns') :: rest => by
    rintro ⟨ns, hns, hm⟩
    simp only [groupInsert] at hns
    split at hns
    · rcases List.mem_cons.mp hns with heq | hin
      · obtain ⟨rfl, rfl⟩ := Prod.mk.injEq .. |>.mp heq
        left
        exact ⟨List.mem_singleton.mp hm, rfl⟩
      · right
        exact ⟨ns, hin, hm⟩
    · split at hns
      · next h1 h2 =>
        rcases List.mem_cons.mp hns with heq | hin
        · obtain ⟨rfl, rfl⟩ := Prod.mk.injEq .. |>.mp heq
          rcases (mem_setInsert n m ns').mp hm with rfl | hm'
          · left
            exact ⟨rfl, h2.symm⟩
          · right
            exact ⟨ns', by simp, hm'⟩
        · right
          exact ⟨ns, List.mem_cons_of_mem _ hin, hm⟩
      · rcases List.mem_cons.mp hns with heq | hin
        · obtain ⟨rfl, rfl⟩ := Prod.mk.injEq .. |>.mp heq
          right
          exact ⟨ns, by simp, hm⟩
        · rcases groupInsert_elim d n m k rest ⟨ns, hin, hm⟩ with hl | ⟨ns₂, hns₂, hm₂⟩
          · exact Or.inl hl
          · exact Or.inr ⟨ns₂, List.mem_cons_of_mem _ hns₂, hm₂⟩

theorem orderedGroups_fold_elim :
    ∀ (bm : List (String × Nat)) (acc : List (Nat × List String)) (m : String) (k : Nat),
      (∃ ns, (k, ns) ∈ bm.foldl (fun a p => groupInsert p.2 p.1 a) acc ∧ m ∈ ns) →
      (∃ ns, (k, ns) ∈ acc ∧ m ∈ ns) ∨ (m, k) ∈ bm
  | [], _, _, _, h => Or.inl h
  | p :: rest, acc, m, k, h => by
    rcases orderedGroups_fold_elim rest _ m k h with hacc | hmem
    · rcases groupInsert_elim p.2 p.1 m k acc hacc with ⟨rfl, rfl⟩ | hold
      · right
        simp
      · exact Or.inl hold
    · right
      exact List.mem_cons_of_mem _ hmem

theorem mem_flatGroups (p : String × Nat) (l : List (Nat × List String)) :
    p ∈ flatGroups l ↔ ∃ ns, (p.2, ns) ∈ l ∧ p.1 ∈ ns := by
  simp only [flatGroups, List.mem_flatMap, List.mem_map]
  constructor
  · rintro ⟨⟨k, ns⟩, hg, a, ha, rfl⟩
    exact ⟨ns, hg, ha⟩
  · rintro ⟨ns, hns, hm⟩
    exact ⟨(p.2, ns), hns, p.1, hm, rfl⟩

theorem flatGroups_pairwise : ∀ {l : List (Nat × List String)},
    (l.map Prod.fst).Pairwise (· < ·) → (∀ g ∈ l, g.2.Pairwise (· < ·)) →
    (flatGroups l).Pairwise bmDisplayLt
  | [], _, _ => by simp [flatGroups]
  | g :: rest, h1, h2 => by
    simp only [List.map_cons] at h1
    obtain ⟨hk, hrest⟩ := List.pairwise_cons.mp h1
    have htail : (flatGroups rest).Pairwise bmDisplayLt :=
      flatGroups_pairwise hrest (fun g' hg' => h2 g' (List.mem_cons_of_mem _ hg'))
    simp only [flatGroups, List.flatMap_cons]
    rw [List.pairwise_append]
    refine ⟨?_, htail, ?_⟩
    · rw [List.pairwise_map]
      exact (h2 g (by simp)).imp (fun hab => Or.inr ⟨rfl, hab⟩)
    · intro x hx y hy
      obtain ⟨a, _, rfl⟩ := List.mem_map.mp hx
      obtain ⟨ns, hns, -⟩ := (mem_flatGroups y rest).mp hy
      exact Or.inl (hk y.2 (List.mem_map.mpr ⟨(y.2, ns), hns, rfl⟩))

theorem key_nodup_functional : ∀ {bm : List (String × Nat)}, (bm.map Prod.fst).Nodup →
    ∀ {x : String} {u v : Nat}, (x, u) ∈ bm → (x, v) ∈ bm → u = v
  | [], _, _, _, _, hu, _ => absurd hu (List.not_mem_nil _)
  | p :: rest, h, x, u, v, hu, hv => by
    simp only [List.map_cons, List.nodup_cons] at h
    rcases List.mem_cons.mp hu with hpu | hu' <;> rcases List.mem_cons.mp hv with hpv | hv'
    · rw [← hpu] at hpv
      exact (Prod.mk.injEq .. |>.mp hpv).2.symm
    · exact absurd (List.mem_map.mpr ⟨(x, v), hv', by rw [← hpu]⟩) h.1
    · exact absurd (List.mem_map.mpr ⟨(x, u), hu', by rw [← hpv]⟩) h.1
    · exact key_nodup_functional h.2 hu' hv'

theorem printLoop_none_eq : ∀ (l : List (String × Nat)) (c : Nat),
    printLoop none c l = (l, false)
  | [], _ => rfl
  | x :: rest, c => by
    simp only [printLoop]
    rw [printLoop_none_eq rest (c + 1)]

theorem printLoop_some_eq : ∀ (l : List (String × Nat)) (n c : Nat), c ≤ n →
    printLoop (some n) c l = (l.take (n - c), decide (l.length > n - c))
  | [], n, c, _ => by simp [printLoop]
  | x :: rest, n, c, hc => by
    by_cases h : c ≥ n
    · have hnc : n - c = 0 := by omega
      simp [printLoop, h, hnc]
    · have h1 : n - c = (n - (c + 1)) + 1 := by omega
      simp only [printLoop, if_neg h]
      rw [printLoop_some_eq rest n (c + 1) (by omega), h1]
      simp only [List.take_succ_cons, List.length_cons, Prod.mk.injEq]
      refine ⟨trivial, ?_⟩
      rw [decide_eq_decide]
      omega

/-- C7: for every resolved bookmark map (name-keyed, hence no duplicate
names), the rendered bookmark list is sorted by distance ascending then name
ascending (grouping by distance with lexicographic order inside a group),
contains no duplicate names, draws every printed entry from the resolved
map, and a configured maximum count `n` prints exactly the first `n`
entries with the ellipsis exactly when more than `n` exist (no maximum
prints everything, no ellipsis). -/
theorem bookmarks_print_spec (bm : List (String × Nat)) (max_bookmarks : Option Nat)
    (hkeys : (bm.map Prod.fst).Nodup) :
    (flatGroups (orderedGroups bm)).Pairwise bmDisplayLt ∧
    ((flatGroups (orderedGroups bm)).map Prod.fst).Nodup ∧
    (∀ p ∈ flatGroups (orderedGroups bm), p ∈ bm) ∧
    (∀ n, max_bookmarks = some n →
      (bookmarksPrinted bm max_bookmarks).1 = (flatGroups (orderedGroups bm)).take n ∧
      (bookmarksPrinted bm max_bookmarks).2 =
        decide ((flatGroups (orderedGroups bm)).length > n)) ∧
    (max_bookmarks = none →
      (bookmarksPrinted bm max_bookmarks).1 = flatGroups (orderedGroups bm) ∧
      (bookmarksPrinted bm max_bookmarks).2 = false) := by
  have hwf := orderedGroups_wf bm
  have hpw := flatGroups_pairwise hwf.1 hwf.2
  have horig : ∀ p ∈ flatGroups (orderedGroups bm), p ∈ bm := by
    intro p hp
    obtain ⟨ns, hns, hm⟩ := (mem_flatGroups p _).mp hp
    rcases orderedGroups_fold_elim bm [] p.1 p.2 ⟨ns, hns, hm⟩ with ⟨ns', hns', -⟩ | hmem
    · exact absurd hns' (List.not_mem_nil _)
    · simpa using hmem
  refine ⟨hpw, ?_, horig, ?_, ?_⟩
  · have hne : (flatGroups (orderedGroups bm)).Pairwise (fun a b => a.1 ≠ b.1) := by
      refine List.Pairwise.imp_of_mem ?_ hpw
      intro a b ha hb hab heq
      rcases hab with hlt | ⟨-, hnlt⟩
      · have h1 : (a.1, a.2) ∈ bm := by simpa using horig a ha
        have h2 : (a.1, b.2) ∈ bm := by rw [heq]; simpa using horig b hb
        exact absurd (key_nodup_functional hkeys h1 h2) (Nat.ne_of_lt hlt)
      · exact absurd (heq ▸ hnlt) (lt_irrefl _)
    exact List.pairwise_map.mpr hne
  · rintro n rfl
    rw [bookmarksPrinted, printLoop_some_eq _ n 0 (Nat.zero_le n)]
    simp
  · rintro rfl
    rw [bookmarksPrinted, printLoop_none_eq]
    exact ⟨rfl, rfl⟩

theorem bookmarks_print_spec_witness :
    (([(("a" : String), 0), ("b", 0), ("c", 0)].map Prod.fst).Nodup) ∧
    (bookmarksPrinted [(("a" : String), 0), ("b", 0), ("c", 0)] (some 1)).1 =
      (flatGroups (orderedGroups [(("a" : String), 0), ("b", 0), ("c", 0)])).take 1 ∧
    (bookmarksPrinted [(("a" : String), 0), ("b", 0), ("c", 0)] (some 1)).2 =
      decide ((flatGroups (orderedGroups [(("a" : String), 0), ("b", 0), ("c", 0)])).length > 1) :=
  ⟨by decide,
   (bookmarks_print_spec [("a", 0), ("b", 0), ("c", 0)] (some 1) (by decide)).2.2.2.1 1 rfl⟩

theorem bmInsert_mem_elim {k : String} {v : Nat} {p : String × Nat} :
    ∀ {l : List (String × Nat)}, p ∈ bmInsert k v l → p = (k, v) ∨ p ∈ l
  | [], h => Or.inl (List.mem_singleton.mp h)
  | (k', v') :: rest, h => by
    simp only [bmInsert] at h
    split at h
    · exact List.mem_cons.mp h
    · split at h
      · rcases List.mem_cons.mp h with rfl | hin
        · exact Or.inl rfl
        · exact Or.inr (List.mem_cons_of_mem _ hin)
      · rcases List.mem_cons.mp h with rfl | hin
        · exact Or.inr (List.mem_cons_self _ _)
        · rcases bmInsert_mem_elim hin with he | hin'
          · exact Or.inl he
          · exact Or.inr (List.mem_cons_of_mem _ hin')

/-- The shape of both loop bodies of `collect_bookmarks_for_commit`: a step
either leaves the accumulator untouched or inserts one bookmark at the
call's distance and sets the found flag. -/
def stepShape {α : Type} (d : Nat)
    (f : List (String × Nat) × Bool → α → List (String × Nat) × Bool) : Prop :=
  ∀ acc x, f acc x = acc ∨
    ((f acc x).2 = true ∧ ∃ k, (f acc x).1 = bmInsert k d acc.1)

theorem foldl_flag_absorb {α : Type} {d : Nat}
    {f : List (String × Nat) × Bool → α → List (String × Nat) × Bool}
    (hf : stepShape d f) :
    ∀ (l : List α) (acc), acc.2 = true → (l.foldl f acc).2 = true
  | [], _, h => h
  | x :: l, acc, h => by
    rcases hf acc x with he | ⟨ht, -⟩
    · rw [List.foldl_cons, he]
      exact foldl_flag_absorb hf l acc h
    · exact foldl_flag_absorb hf l _ ht

theorem foldl_flag_false_id {α : Type} {d : Nat}
    {f : List (String × Nat) × Bool → α → List (String × Nat) × Bool}
    (hf : stepShape d f) :
    ∀ (l : List α) (acc), (l.foldl f acc).2 = false → l.foldl f acc = acc
  | [], _, _ => rfl
  | x :: l, acc, hfalse => by
    rcases hf acc x with he | ⟨ht, -⟩
    · rw [List.foldl_cons, he] at hfalse ⊢
      exact foldl_flag_false_id hf l acc hfalse
    · exfalso
      rw [List.foldl_cons] at hfalse
      have habs := foldl_flag_absorb hf l (f acc x) ht
      rw [hfalse] at habs
      exact Bool.false_ne_true habs

theorem foldl_mem_elim {α : Type} {d : Nat}
    {f : List (String × Nat) × Bool → α → List (String × Nat) × Bool}
    (hf : stepShape d f) :
    ∀ (l : List α) (acc) (p : String × Nat),
      p ∈ (l.foldl f acc).1 → p ∈ acc.1 ∨ p.2 = d
  | [], _, _, h => Or.inl h
  | x :: l, acc, p, h => by
    rw [List.foldl_cons] at h
    rcases foldl_mem_elim hf l (f acc x) p h with hin | hd
    · rcases hf acc x with he | ⟨-, k, hk⟩
      · rw [he] at hin
        exact Or.inl hin
      · rw [hk] at hin
        rcases bmInsert_mem_elim hin with rfl | hin'
        · exact Or.inr rfl
        · exact Or.inl hin'
    · exact Or.inr hd

theorem foldl_id {α β : Type} (f : β → α → β) :
    ∀ (l : List α) (acc : β), (∀ acc' x, x ∈ l → f acc' x = acc') → l.foldl f acc = acc
  | [], _, _ => rfl
  | x :: l, acc, h => by
    rw [List.foldl_cons, h acc x (List.mem_cons_self _ _)]
    exact foldl_id f l acc fun acc' y hy => h acc' y (List.mem_cons_of_mem _ hy)

theorem local_step_shape (cfg : BookmarkConfig) (d : Nat) :
    stepShape d (fun (acc : List (String × Nat) × Bool) (name : String) =>
      if cfg.exclude.any (fun glob => glob name) then acc
      else (bmInsert name d acc.1, true)) := by
  intro acc x
  dsimp only
  split
  · exact Or.inl rfl
  · exact Or.inr ⟨rfl, x, rfl⟩

theorem remote_step_shape (cfg : BookmarkConfig) (d : Nat) (c : CIdT)
    (lnames : List String) :
    stepShape d (fun (acc : List (String × Nat) × Bool) (rb : String × String × List CIdT) =>
      if rb.2.2.contains c then
        if lnames.contains rb.1 then acc
        else
          if cfg.exclude.any (fun glob => glob (rb.1 ++ "@" ++ rb.2.1)) then acc
          else (bmInsert (rb.1 ++ "@" ++ rb.2.1) d acc.1, true)
      else acc) := by
  intro acc x
  dsimp only
  split
  · split
    · exact Or.inl rfl
    · split
      · exact Or.inl rfl
      · exact Or.inr ⟨rfl, _, rfl⟩
  · exact Or.inl rfl

theorem collect_mem_elim (g : RepoGraph) (cfg : BookmarkConfig) (c : CIdT)
    (bm : List (String × Nat)) (d : Nat) (p : String × Nat)
    (hp : p ∈ (collect_bookmarks_for_commit g cfg c bm d).1) : p ∈ bm ∨ p.2 = d := by
  unfold collect_bookmarks_for_commit at hp
  rcases foldl_mem_elim (remote_step_shape cfg d c _) g.remoteBk _ p hp with hloc | hd
  · rcases foldl_mem_elim (local_step_shape cfg d) (g.localBk c) (bm, false) p hloc with hin | hd
    · exact Or.inl hin
    · exact Or.inr hd
  · exact Or.inr hd

theorem collect_false_id (g : RepoGraph) (cfg : BookmarkConfig) (c : CIdT)
    (bm : List (String × Nat)) (d : Nat)
    (hfalse : (collect_bookmarks_for_commit g cfg c bm d).2 = false) :
    (collect_bookmarks_for_commit g cfg c bm d).1 = bm := by
  unfold collect_bookmarks_for_commit at hfalse ⊢
  have hrem := foldl_flag_false_id (remote_step_shape cfg d c _) g.remoteBk _ hfalse
  rw [hrem] at hfalse ⊢
  have hloc := foldl_flag_false_id (local_step_shape cfg d) (g.localBk c) (bm, false) hfalse
  rw [hloc]

theorem collect_no_bookmarks (g : RepoGraph) (cfg : BookmarkConfig) (c : CIdT)
    (bm : List (String × Nat)) (d : Nat)
    (hl : g.localBk c = [])
    (hr : ∀ rb ∈ g.remoteBk, c ∉ rb.2.2) :
    collect_bookmarks_for_commit g cfg c bm d = (bm, false) := by
  unfold collect_bookmarks_for_commit
  rw [hl]
  dsimp only [List.foldl_nil]
  exact foldl_id _ g.remoteBk (bm, false) fun acc' rb hrb => by
    have : rb.2.2.contains c = false := by simpa using hr rb hrb
    simp only [this, Bool.false_eq_true, if_false]

theorem find_parent_bookmarks_found (g : RepoGraph) (cfg : BookmarkConfig)
    (hfound : (collect_bookmarks_for_commit g cfg g.wc [] 0).2 = true) :
    find_parent_bookmarks g cfg = (collect_bookmarks_for_commit g cfg g.wc [] 0).1 := by
  unfold find_parent_bookmarks
  simp only [List.head?_cons, hfound, if_true]

theorem find_parent_bookmarks_notfound (g : RepoGraph) (cfg : BookmarkConfig)
    (hnf : (collect_bookmarks_for_commit g cfg g.wc [] 0).2 = false) :
    find_parent_bookmarks g cfg =
      match (latestOf g (headsOf g (bookmarkedWcParentAncestors g))).head? with
      | none => []
      | some target_id =>
        (collect_bookmarks_for_commit g cfg target_id []
          ((revsetRange g target_id).length - 1)).1 := by
  unfold find_parent_bookmarks
  simp only [List.head?_cons, hnf, Bool.false_eq_true, if_false,
    collect_false_id g cfg g.wc [] 0 hnf]

/-- C1 counterexample: with the search depth configured to 1 and no
bookmark on the working copy or its direct parent (`gChain` has its only
bookmark two steps back), the claim demands an empty result — but the
search ignores `search_depth` entirely and returns that bookmark at
distance 2. -/
theorem bookmark_search_depth_counterexample :
    cfgDepth1.search_depth = 1 ∧
    gChain.localBk gChain.wc = [] ∧
    gChain.parents gChain.wc = [1] ∧
    gChain.localBk 1 = [] ∧
    gChain.remoteBk = [] ∧
    find_parent_bookmarks gChain cfgDepth1 = [("b", 2)] :=
  ⟨rfl, rfl, rfl, rfl, rfl, by decide⟩

/-- C1 amended: the query is *not* restricted by the configured maximum
search depth (`search_depth` is never consulted by the search); what holds
is: whenever the working copy carries no local bookmark and no remote
bookmark targets it, and no commit reachable backward from the working
copy's parents carries a local bookmark, `find_parent_bookmarks` returns
the empty map — a normal return, not an error. -/
theorem find_parent_bookmarks_empty (g : RepoGraph) (cfg : BookmarkConfig)
    (hwcL : g.localBk g.wc = [])
    (hwcR : ∀ rb ∈ g.remoteBk, g.wc ∉ rb.2.2)
    (hanc : ∀ c ∈ ancestorsOfWcParents g, g.localBk c = []) :
    find_parent_bookmarks g cfg = [] := by
  have hcol := collect_no_bookmarks g cfg g.wc [] 0 hwcL hwcR
  have hnf : (collect_bookmarks_for_commit g cfg g.wc [] 0).2 = false := by rw [hcol]
  rw [find_parent_bookmarks_notfound g cfg hnf]
  have hbk : bookmarkedWcParentAncestors g = [] := by
    refine List.filter_eq_nil_iff.mpr ?_
    intro c hc
    simp [hanc c hc]
  rw [hbk]
  rfl

theorem find_parent_bookmarks_empty_witness :
    gEmptyBk.localBk gEmptyBk.wc = [] ∧
    find_parent_bookmarks gEmptyBk cfgDepth1 = [] :=
  ⟨rfl, find_parent_bookmarks_empty gEmptyBk cfgDepth1 rfl (by decide) (by decide)⟩

/-- C2 counterexample: in the merge history `gMerge`, commit `1` is a
*direct parent* of the working copy and carries the only bookmark, yet the
reported distance is 2 (the ancestry range `1::@` is `{1, 2, 0}` of size 3),
refuting "for a bookmark on the direct parent, the distance is 1". -/
theorem direct_parent_distance_counterexample :
    (1 : CIdT) ∈ gMerge.parents gMerge.wc ∧
    gMerge.localBk 1 = ["m"] ∧
    find_parent_bookmarks gMerge cfgDepth1 = [("m", 2)] :=
  ⟨by decide, rfl, by decide⟩

/-- C2 amended: every bookmark found on the working-copy commit itself is
reported at distance 0, and when nothing is found there and the tug query
yields a target, every reported bookmark carries distance
`|target::@| - 1` — the size of the ancestry range from the target up to
and including the working copy, minus one.  (A bookmark on a direct parent
gets distance 1 exactly when that range has size 2, which can fail in merge
histories.) -/
theorem bookmark_distance_spec (g : RepoGraph) (cfg : BookmarkConfig) :
    ((collect_bookmarks_for_commit g cfg g.wc [] 0).2 = true →
      ∀ p ∈ find_parent_bookmarks g cfg, p.2 = 0) ∧
    ((collect_bookmarks_for_commit g cfg g.wc [] 0).2 = false →
      ∀ target_id,
        (latestOf g (headsOf g (bookmarkedWcParentAncestors g))).head? = some target_id →
        ∀ p ∈ find_parent_bookmarks g cfg, p.2 = (revsetRange g target_id).length - 1) := by
  constructor
  · intro hf p hp
    rw [find_parent_bookmarks_found g cfg hf] at hp
    rcases collect_mem_elim g cfg g.wc [] 0 p hp with hin | hd
    · exact absurd hin (List.not_mem_nil p)
    · exact hd
  · intro hnf target_id ht p hp
    rw [find_parent_bookmarks_notfound g cfg hnf, ht] at hp
    rcases collect_mem_elim g cfg target_id [] ((revsetRange g target_id).length - 1) p hp with
      hin | hd
    · exact absurd hin (List.not_mem_nil p)
    · exact hd

theorem bookmark_distance_spec_witness :
    (collect_bookmarks_for_commit gWcBk cfgDepth1 gWcBk.wc [] 0).2 = true ∧
    ((("x" : String), (0 : Nat)).2 = 0) ∧
    (collect_bookmarks_for_commit gMerge cfgDepth1 gMerge.wc [] 0).2 = false ∧
    ((("m" : String), (2 : Nat)).2 = (revsetRange gMerge 1).length - 1) :=
  ⟨by decide,
   (bookmark_distance_spec gWcBk cfgDepth1).1 (by decide) ("x", 0) (by decide),
   by decide,
   (bookmark_distance_spec gMerge cfgDepth1).2 (by decide) 1 (by decide) ("m", 2) (by decide)⟩

/-- C10 counterexample: two 40-character ids agreeing on their first 9
characters give a shortest-unique-prefix length of 10; `Commit::print`'s
`split_at` on the 8-character short id is then out of bounds (a panic,
modelled as `none`), refuting "the shortest unique prefix length is at most
8 for every reachable repository state". -/
theorem short_id_split_counterexample :
    idA.length = 40 ∧
    shortestUniquePrefixLen [idB] idA = 10 ∧
    renderShortId idA (shortestUniquePrefixLen [idB] idA) = none :=
  ⟨by decide, by decide, by decide⟩

/-- C10 amended: the `[..8]` slice never panics because id strings have at
least 8 characters (commit ids render to 40, change ids to 32), and the
`split_at` stays in bounds whenever the shortest-unique-prefix length is at
most 8 — which holds whenever every other id shares fewer than 8 leading
characters with the rendered id, but not in general. -/
theorem renderShortId_safe (idStr : List Char) (idx : Nat) (others : List (List Char))
    (hlen : 8 ≤ idStr.length) :
    (idx ≤ 8 →
      renderShortId idStr idx = some ((idStr.take 8).take idx, (idStr.take 8).drop idx)) ∧
    ((∀ o ∈ others, commonPrefixLen idStr o < 8) →
      shortestUniquePrefixLen others idStr ≤ 8) := by
  constructor
  · intro hidx
    unfold renderShortId
    rw [if_neg (by omega)]
    have h8 : (idStr.take 8).length = 8 := by
      rw [List.length_take, Nat.min_eq_left hlen]
    rw [if_pos (by rw [h8]; exact hidx)]
  · intro hall
    unfold shortestUniquePrefixLen
    have hfold : ∀ (l : List (List Char)) (m : Nat), m ≤ 7 →
        (∀ o ∈ l, commonPrefixLen idStr o < 8) →
        l.foldl (fun m o => max m (commonPrefixLen idStr o)) m ≤ 7 := by
      intro l
      induction l with
      | nil => intro m hm _; exact hm
      | cons x xs ih =>
        intro m hm hall
        rw [List.foldl_cons]
        refine ih _ ?_ (fun o ho => hall o (List.mem_cons_of_mem _ ho))
        exact Nat.max_le.mpr ⟨hm, Nat.lt_succ_iff.mp (hall x (List.mem_cons_self _ _))⟩
    have h := hfold others 0 (by omega) hall
    omega

theorem renderShortId_safe_witness :
    (8 : Nat) ≤ idA.length ∧
    renderShortId idA 8 = some ((idA.take 8).take 8, (idA.take 8).drop 8) ∧
    shortestUniquePrefixLen [] idA ≤ 8 :=
  ⟨by decide, (renderShortId_safe idA 8 [] (by decide)).1 (by omega),
   (renderShortId_safe idA 8 [] (by decide)).2 (by simp)⟩

end StarshipJJ
